import Mathlib

/-!
Verification of the graph/BST core of the `cxx-reminder` repository
(`src/Graphs.cpp`, `src/Trees.cpp`), as a shallow embedding in Lean.

Modelling conventions:
* C++ `int` values (vertex ids, BST data) are modelled as `Int`.
* Edge weights (`float`) are modelled as exact rationals `Rat`; the source
  never performs arithmetic on weights, it only stores them and compares
  them with `0.0f`, so the embedding is exact on that fragment.
* `std::vector`/`std::list` become `List`; a C++ index test
  `v >= container.size()` on a signed `int` `v` promotes `v` to an
  unsigned type, so a negative `v` is treated as out of range; the
  embedding makes that explicit with `vertexInRange`.
* Mutating member functions become functions from the old structure value
  to the new one; functions that print become functions returning the
  emitted list of vertices.
-/

/-- `struct Edge` of `Graphs.cpp`. -/
structure Edge where
  m_vertex1 : Int := 0
  m_vertex2 : Int := 0
  m_weight : Rat := 0
deriving DecidableEq, Repr

/-- In-range test for a C++ `int` index compared against `container.size()`:
`v >= size` promotes a negative `v` to a huge unsigned value, so the
C++ test treats exactly the indices outside `[0, size)` as out of range. -/
def vertexInRange (v : Int) (size : Nat) : Bool :=
  decide (0 ≤ v) && decide (v < (size : Int))

/-- `class GraphEdgeList` of `Graphs.cpp`: edge-list storage. -/
structure GraphEdgeList where
  m_isDirected : Bool := true
  m_edgeList : List Edge := []
deriving DecidableEq, Repr

/-- `GraphEdgeList::GetEdges`. -/
def GraphEdgeList.GetEdges (g : GraphEdgeList) (v : Int) : List Edge :=
  if g.m_isDirected then
    g.m_edgeList.filter (fun e => e.m_vertex1 == v)
  else
    g.m_edgeList.filter (fun e => e.m_vertex1 == v || e.m_vertex2 == v)

/-- `GraphEdgeList::GetEdge`: weight of the first matching stored edge, `0` if none. -/
def GraphEdgeList.GetEdge (g : GraphEdgeList) (v1 v2 : Int) : Rat :=
  match g.m_edgeList.find? (fun e =>
      if g.m_isDirected then
        e.m_vertex1 == v1 && e.m_vertex2 == v2
      else
        (e.m_vertex1 == v1 && e.m_vertex2 == v2) ||
        (e.m_vertex1 == v2 && e.m_vertex2 == v1)) with
  | some e => e.m_weight
  | none => 0

/-- `GraphEdgeList::SetEdge`: no-op on zero weight, otherwise append
(without checking whether the edge already exists). -/
def GraphEdgeList.SetEdge (g : GraphEdgeList) (v1 v2 : Int) (weight : Rat) : GraphEdgeList :=
  if weight = 0 then g
  else { g with m_edgeList := g.m_edgeList ++ [⟨v1, v2, weight⟩] }

/-- `class GraphAdjecencyMatrix` of `Graphs.cpp` (source spelling kept). -/
structure GraphAdjecencyMatrix where
  m_isDirected : Bool := true
  m_matrix : List (List Rat)
deriving DecidableEq, Repr

/-- The `GraphAdjecencyMatrix(vertexCount, isDirected)` constructor:
a `vertexCount × vertexCount` matrix of zeros. -/
def GraphAdjecencyMatrix.mk0 (vertexCount : Nat) (isDirected : Bool := true) :
    GraphAdjecencyMatrix :=
  { m_isDirected := isDirected
    m_matrix := List.replicate vertexCount (List.replicate vertexCount 0) }

/-- `m_matrix[v1][v2]` (only meaningful in range). -/
def matGet (m : List (List Rat)) (v1 v2 : Int) : Rat :=
  (m.getD v1.toNat []).getD v2.toNat 0

/-- `m_matrix[v1][v2] = w` (only meaningful in range). -/
def matSet (m : List (List Rat)) (v1 v2 : Int) (w : Rat) : List (List Rat) :=
  m.set v1.toNat ((m.getD v1.toNat []).set v2.toNat w)

/-- `GraphAdjecencyMatrix::GetEdges`: row scan for non-zero entries. -/
def GraphAdjecencyMatrix.GetEdges (g : GraphAdjecencyMatrix) (v : Int) : List Edge :=
  if ¬ vertexInRange v g.m_matrix.length then []
  else
    let row := g.m_matrix.getD v.toNat []
    (List.range row.length).filterMap (fun v2 =>
      if row.getD v2 0 ≠ 0 then some ⟨v, (v2 : Int), row.getD v2 0⟩ else none)

/-- `GraphAdjecencyMatrix::GetEdge`. -/
def GraphAdjecencyMatrix.GetEdge (g : GraphAdjecencyMatrix) (v1 v2 : Int) : Rat :=
  if ¬ (vertexInRange v1 g.m_matrix.length && vertexInRange v2 g.m_matrix.length) then 0
  else matGet g.m_matrix v1 v2

/-- `GraphAdjecencyMatrix::SetEdge`: no-op on zero weight or out-of-range
index; otherwise overwrite the cell, and its mirror when undirected. -/
def GraphAdjecencyMatrix.SetEdge (g : GraphAdjecencyMatrix) (v1 v2 : Int) (weight : Rat) :
    GraphAdjecencyMatrix :=
  if weight = 0 then g
  else if ¬ (vertexInRange v1 g.m_matrix.length && vertexInRange v2 g.m_matrix.length) then g
  else
    let m := matSet g.m_matrix v1 v2 weight
    { g with m_matrix := if ¬ g.m_isDirected then matSet m v2 v1 weight else m }

/-- `class GraphAdjecencyList` of `Graphs.cpp` (source spelling kept). -/
structure GraphAdjecencyList where
  m_isDirected : Bool := true
  m_vertices : List (List Edge)
deriving DecidableEq, Repr

/-- The `GraphAdjecencyList(vertexCount, isDirected)` constructor. -/
def GraphAdjecencyList.mk0 (vertexCount : Nat) (isDirected : Bool := true) :
    GraphAdjecencyList :=
  { m_isDirected := isDirected
    m_vertices := List.replicate vertexCount [] }

/-- `GraphAdjecencyList::GetEdges`. -/
def GraphAdjecencyList.GetEdges (g : GraphAdjecencyList) (v : Int) : List Edge :=
  if ¬ vertexInRange v g.m_vertices.length then []
  else g.m_vertices.getD v.toNat []

/-- `GraphAdjecencyList::GetEdge`: first edge of `v1`'s list ending at `v2`. -/
def GraphAdjecencyList.GetEdge (g : GraphAdjecencyList) (v1 v2 : Int) : Rat :=
  if ¬ (vertexInRange v1 g.m_vertices.length && vertexInRange v2 g.m_vertices.length) then 0
  else
    match (g.m_vertices.getD v1.toNat []).find? (fun e => e.m_vertex2 == v2) with
    | some e => e.m_weight
    | none => 0

/-- `GraphAdjecencyList::SetEdge`: no-op on zero weight or out-of-range
index; otherwise append to `v1`'s list, and the mirrored edge to `v2`'s
list when undirected (without checking whether the edge already exists). -/
def GraphAdjecencyList.SetEdge (g : GraphAdjecencyList) (v1 v2 : Int) (weight : Rat) :
    GraphAdjecencyList :=
  if weight = 0 then g
  else if ¬ (vertexInRange v1 g.m_vertices.length && vertexInRange v2 g.m_vertices.length) then g
  else
    let vs := g.m_vertices.set v1.toNat ((g.m_vertices.getD v1.toNat []) ++ [⟨v1, v2, weight⟩])
    { g with m_vertices :=
        if ¬ g.m_isDirected then
          vs.set v2.toNat ((vs.getD v2.toNat []) ++ [⟨v2, v1, weight⟩])
        else vs }

/-! ### Basic list-indexing helper lemmas -/

theorem getD_set_self {α : Type _} {l : List α} {i : Nat} {w d : α} (h : i < l.length) :
    (l.set i w).getD i d = w := by
  rw [List.getD_eq_getElem?_getD, List.getElem?_set_self h]; rfl

theorem getD_set_ne {α : Type _} {l : List α} {i j : Nat} (h : i ≠ j) (w d : α) :
    (l.set i w).getD j d = l.getD j d := by
  rw [List.getD_eq_getElem?_getD, List.getElem?_set_ne h, ← List.getD_eq_getElem?_getD]

theorem find?_append_of_none {α : Type _} {p : α → Bool} {l₁ l₂ : List α}
    (h : l₁.find? p = none) : (l₁ ++ l₂).find? p = l₂.find? p := by
  rw [List.find?_append, h]; rfl

theorem vertexInRange_iff {v : Int} {n : Nat} :
    vertexInRange v n = true ↔ 0 ≤ v ∧ v < (n : Int) := by
  simp [vertexInRange]

theorem toNat_lt_of_inRange {v : Int} {n : Nat} (h : vertexInRange v n = true) :
    v.toNat < n := by
  rcases vertexInRange_iff.1 h with ⟨h0, hn⟩
  exact (Int.toNat_lt h0).2 hn

theorem toNat_ne_of_ne {a b : Int} (ha : 0 ≤ a) (hb : 0 ≤ b) (h : a ≠ b) :
    a.toNat ≠ b.toNat := by
  intro he
  exact h (by rw [← Int.toNat_of_nonneg ha, ← Int.toNat_of_nonneg hb, he])

/-! ### Matrix helper lemmas -/

theorem matSet_length (m : List (List Rat)) (a b : Int) (w : Rat) :
    (matSet m a b w).length = m.length := by
  simp [matSet]

theorem matGet_matSet_self {m : List (List Rat)} {a b : Int} (w : Rat)
    (ha : a.toNat < m.length) (hb : b.toNat < (m.getD a.toNat []).length) :
    matGet (matSet m a b w) a b = w := by
  unfold matGet matSet
  rw [getD_set_self (by simpa using ha), getD_set_self (by simpa using hb)]

theorem matGet_matSet_ne {m : List (List Rat)} {a b a' b' : Int} (w : Rat)
    (h : a'.toNat ≠ a.toNat ∨ b'.toNat ≠ b.toNat) :
    matGet (matSet m a b w) a' b' = matGet m a' b' := by
  unfold matGet matSet
  by_cases hrow : a'.toNat = a.toNat
  · rcases h with h | h
    · exact absurd hrow h
    · rw [hrow]
      by_cases hlt : a.toNat < m.length
      · rw [getD_set_self hlt]
        exact getD_set_ne (fun he => h he.symm) _ _
      · have h1 : (m.set a.toNat ((m.getD a.toNat []).set b.toNat w)).getD a.toNat [] = [] :=
          List.getD_eq_default _ _ (by simpa using Nat.le_of_not_lt hlt)
        have h2 : m.getD a.toNat [] = [] :=
          List.getD_eq_default _ _ (Nat.le_of_not_lt hlt)
        rw [h1, h2]
  · rw [getD_set_ne (fun he => hrow he.symm) _ _]

theorem matSet_row_length (m : List (List Rat)) (a b : Int) (w : Rat) (i : Nat) :
    ((matSet m a b w).getD i []).length = (m.getD i []).length := by
  unfold matSet
  by_cases hi : i = a.toNat
  · rw [hi]
    by_cases hlt : a.toNat < m.length
    · rw [getD_set_self hlt]; simp
    · have h1 : (m.set a.toNat ((m.getD a.toNat []).set b.toNat w)).getD a.toNat [] = [] :=
        List.getD_eq_default _ _ (by simpa using Nat.le_of_not_lt hlt)
      have h2 : m.getD a.toNat [] = [] :=
        List.getD_eq_default _ _ (Nat.le_of_not_lt hlt)
      rw [h1, h2]
  · rw [getD_set_ne (fun he => hi he.symm) _ _]

/-- Squareness invariant of the adjacency matrix: every row has as many
entries as there are rows.  Established by the constructor and preserved
by `SetEdge`; the C++ code relies on it to index `m_matrix[v1][v2]`. -/
def GraphAdjecencyMatrix.WF (g : GraphAdjecencyMatrix) : Prop :=
  ∀ row ∈ g.m_matrix, row.length = g.m_matrix.length

instance (g : GraphAdjecencyMatrix) : Decidable g.WF := by
  unfold GraphAdjecencyMatrix.WF; infer_instance

theorem WF_row_length {g : GraphAdjecencyMatrix} (h : g.WF) {i : Nat}
    (hi : i < g.m_matrix.length) :
    (g.m_matrix.getD i []).length = g.m_matrix.length := by
  rw [List.getD_eq_getElem _ _ hi]
  exact h _ (List.getElem_mem hi)

/-! ### SetEdge/GetEdge interaction, per storage variant -/

theorem matrix_setEdge_matrix (g : GraphAdjecencyMatrix) (a b : Int) (w : Rat)
    (ha : vertexInRange a g.m_matrix.length = true)
    (hb : vertexInRange b g.m_matrix.length = true) (hw : w ≠ 0) :
    (g.SetEdge a b w).m_matrix =
      if g.m_isDirected then matSet g.m_matrix a b w
      else matSet (matSet g.m_matrix a b w) b a w := by
  simp only [GraphAdjecencyMatrix.SetEdge, ha, hb, if_neg hw]
  cases g.m_isDirected <;> simp

theorem matrix_setEdge_length (g : GraphAdjecencyMatrix) (a b : Int) (w : Rat)
    (ha : vertexInRange a g.m_matrix.length = true)
    (hb : vertexInRange b g.m_matrix.length = true) (hw : w ≠ 0) :
    (g.SetEdge a b w).m_matrix.length = g.m_matrix.length := by
  rw [matrix_setEdge_matrix g a b w ha hb hw]
  cases g.m_isDirected <;> simp [matSet_length]

theorem matrix_setEdge_getEdge_ab (g : GraphAdjecencyMatrix) (a b : Int) (w : Rat)
    (hwf : g.WF)
    (ha : vertexInRange a g.m_matrix.length = true)
    (hb : vertexInRange b g.m_matrix.length = true) (hw : w ≠ 0) :
    (g.SetEdge a b w).GetEdge a b = w := by
  have haN := toNat_lt_of_inRange ha
  have hbrow : b.toNat < (g.m_matrix.getD a.toNat []).length := by
    rw [WF_row_length hwf haN]; exact toNat_lt_of_inRange hb
  have hget : matGet (g.SetEdge a b w).m_matrix a b = w := by
    rw [matrix_setEdge_matrix g a b w ha hb hw]
    cases hdir : g.m_isDirected
    · simp only [if_neg (Bool.false_ne_true)]
      by_cases hab : a = b
      · subst hab
        exact matGet_matSet_self w (by simpa [matSet_length] using haN)
          (by rw [matSet_row_length]; exact hbrow)
      · have hne : a.toNat ≠ b.toNat :=
          toNat_ne_of_ne (vertexInRange_iff.1 ha).1 (vertexInRange_iff.1 hb).1 hab
        rw [matGet_matSet_ne w (Or.inl hne)]
        exact matGet_matSet_self w haN hbrow
    · simp only [if_pos rfl]
      exact matGet_matSet_self w haN hbrow
  simp only [GraphAdjecencyMatrix.GetEdge,
    matrix_setEdge_length g a b w ha hb hw, ha, hb]
  simpa using hget

theorem matrix_setEdge_getEdge_ba (g : GraphAdjecencyMatrix) (a b : Int) (w : Rat)
    (hwf : g.WF) (hdir : g.m_isDirected = false)
    (ha : vertexInRange a g.m_matrix.length = true)
    (hb : vertexInRange b g.m_matrix.length = true) (hw : w ≠ 0) :
    (g.SetEdge a b w).GetEdge b a = w := by
  have haN := toNat_lt_of_inRange ha
  have hbN := toNat_lt_of_inRange hb
  have hget : matGet (g.SetEdge a b w).m_matrix b a = w := by
    rw [matrix_setEdge_matrix g a b w ha hb hw, hdir]
    simp only [if_neg (Bool.false_ne_true)]
    exact matGet_matSet_self w (by simpa [matSet_length] using hbN)
      (by rw [matSet_row_length, WF_row_length hwf hbN]; exact haN)
  simp only [GraphAdjecencyMatrix.GetEdge,
    matrix_setEdge_length g a b w ha hb hw, ha, hb]
  simpa using hget

theorem edgeList_setEdge_getEdge (g : GraphEdgeList) (a b : Int) (w : Rat)
    (hdir : g.m_isDirected = true) (hw : w ≠ 0)
    (hfresh : ∀ e ∈ g.m_edgeList, ¬ (e.m_vertex1 = a ∧ e.m_vertex2 = b)) :
    (g.SetEdge a b w).GetEdge a b = w := by
  have hset : (g.SetEdge a b w) = { g with m_edgeList := g.m_edgeList ++ [⟨a, b, w⟩] } := by
    simp [GraphEdgeList.SetEdge, hw]
  rw [hset]
  simp only [GraphEdgeList.GetEdge, hdir, eq_self_iff_true, if_true]
  have hnone : g.m_edgeList.find? (fun e => e.m_vertex1 == a && e.m_vertex2 == b) = none := by
    rw [List.find?_eq_none]
    intro e he
    simp only [Bool.and_eq_true, beq_iff_eq]
    exact fun hc => hfresh e he ⟨hc.1, hc.2⟩
  rw [find?_append_of_none hnone]
  simp [List.find?]

theorem adjList_setEdge_vertices (g : GraphAdjecencyList) (a b : Int) (w : Rat)
    (ha : vertexInRange a g.m_vertices.length = true)
    (hb : vertexInRange b g.m_vertices.length = true) (hw : w ≠ 0) :
    (g.SetEdge a b w).m_vertices =
      (let vs := g.m_vertices.set a.toNat ((g.m_vertices.getD a.toNat []) ++ [⟨a, b, w⟩])
       if g.m_isDirected then vs
       else vs.set b.toNat ((vs.getD b.toNat []) ++ [⟨b, a, w⟩])) := by
  simp only [GraphAdjecencyList.SetEdge, ha, hb, if_neg hw]
  cases g.m_isDirected <;> simp

theorem adjList_setEdge_length (g : GraphAdjecencyList) (a b : Int) (w : Rat)
    (ha : vertexInRange a g.m_vertices.length = true)
    (hb : vertexInRange b g.m_vertices.length = true) (hw : w ≠ 0) :
    (g.SetEdge a b w).m_vertices.length = g.m_vertices.length := by
  rw [adjList_setEdge_vertices g a b w ha hb hw]
  cases g.m_isDirected <;> simp

theorem find?_isEnd_append_self (l : List Edge) (a b : Int) (w : Rat)
    (hfresh : ∀ e ∈ l, e.m_vertex2 ≠ b) :
    ((l ++ [(⟨a, b, w⟩ : Edge)]).find? (fun e => e.m_vertex2 == b)) = some (⟨a, b, w⟩ : Edge) := by
  have hnone : l.find? (fun e => e.m_vertex2 == b) = none := by
    rw [List.find?_eq_none]
    intro e he
    simpa using hfresh e he
  rw [find?_append_of_none hnone]
  simp [List.find?]

theorem adjList_setEdge_getEdge_directed (g : GraphAdjecencyList) (a b : Int) (w : Rat)
    (hdir : g.m_isDirected = true)
    (ha : vertexInRange a g.m_vertices.length = true)
    (hb : vertexInRange b g.m_vertices.length = true) (hw : w ≠ 0)
    (hfresh : ∀ e ∈ g.m_vertices.getD a.toNat [], e.m_vertex2 ≠ b) :
    (g.SetEdge a b w).GetEdge a b = w := by
  have haN := toNat_lt_of_inRange ha
  have hvs : (g.SetEdge a b w).m_vertices =
      g.m_vertices.set a.toNat ((g.m_vertices.getD a.toNat []) ++ [⟨a, b, w⟩]) := by
    rw [adjList_setEdge_vertices g a b w ha hb hw, hdir]
    simp
  simp only [GraphAdjecencyList.GetEdge, adjList_setEdge_length g a b w ha hb hw, ha, hb]
  rw [hvs, getD_set_self haN, find?_isEnd_append_self _ a b w hfresh]
  simp

theorem adjList_setEdge_getEdge_undirected (g : GraphAdjecencyList) (a b : Int) (w : Rat)
    (hdir : g.m_isDirected = false)
    (ha : vertexInRange a g.m_vertices.length = true)
    (hb : vertexInRange b g.m_vertices.length = true) (hw : w ≠ 0)
    (hfresha : ∀ e ∈ g.m_vertices.getD a.toNat [], e.m_vertex2 ≠ b)
    (hfreshb : ∀ e ∈ g.m_vertices.getD b.toNat [], e.m_vertex2 ≠ a) :
    (g.SetEdge a b w).GetEdge a b = w ∧ (g.SetEdge a b w).GetEdge b a = w := by
  have haN := toNat_lt_of_inRange ha
  have hbN := toNat_lt_of_inRange hb
  have hvs : (g.SetEdge a b w).m_vertices =
      (g.m_vertices.set a.toNat ((g.m_vertices.getD a.toNat []) ++ [⟨a, b, w⟩])).set b.toNat
        (((g.m_vertices.set a.toNat ((g.m_vertices.getD a.toNat []) ++ [⟨a, b, w⟩])).getD
            b.toNat []) ++ [⟨b, a, w⟩]) := by
    rw [adjList_setEdge_vertices g a b w ha hb hw, hdir]
    simp
  constructor
  · simp only [GraphAdjecencyList.GetEdge, adjList_setEdge_length g a b w ha hb hw, ha, hb]
    rw [hvs]
    by_cases hab : a = b
    · subst hab
      rw [getD_set_self (by simpa using haN), getD_set_self haN]
      rw [show (g.m_vertices.getD a.toNat []) ++ [(⟨a, a, w⟩ : Edge)] ++ [(⟨a, a, w⟩ : Edge)] =
            (g.m_vertices.getD a.toNat []) ++ ([(⟨a, a, w⟩ : Edge)] ++ [(⟨a, a, w⟩ : Edge)]) by
          simp]
      have hnone : (g.m_vertices.getD a.toNat []).find? (fun e => e.m_vertex2 == a) = none := by
        rw [List.find?_eq_none]; intro e he; simpa using hfresha e he
      rw [find?_append_of_none hnone]
      simp [List.find?]
    · have hne : b.toNat ≠ a.toNat :=
        toNat_ne_of_ne (vertexInRange_iff.1 hb).1 (vertexInRange_iff.1 ha).1
          (fun he => hab he.symm)
      rw [getD_set_ne hne, getD_set_self haN, find?_isEnd_append_self _ a b w hfresha]
      simp
  · simp only [GraphAdjecencyList.GetEdge, adjList_setEdge_length g a b w ha hb hw, ha, hb]
    rw [hvs, getD_set_self (by simpa using hbN)]
    by_cases hab : a = b
    · subst hab
      rw [getD_set_self haN]
      rw [show (g.m_vertices.getD a.toNat []) ++ [(⟨a, a, w⟩ : Edge)] ++ [(⟨a, a, w⟩ : Edge)] =
            (g.m_vertices.getD a.toNat []) ++ ([(⟨a, a, w⟩ : Edge)] ++ [(⟨a, a, w⟩ : Edge)]) by
          simp]
      have hnone : (g.m_vertices.getD a.toNat []).find? (fun e => e.m_vertex2 == a) = none := by
        rw [List.find?_eq_none]; intro e he; simpa using hfresha e he
      rw [find?_append_of_none hnone]
      simp [List.find?]
    · have hne : b.toNat ≠ a.toNat :=
        toNat_ne_of_ne (vertexInRange_iff.1 hb).1 (vertexInRange_iff.1 ha).1
          (fun he => hab he.symm)
      rw [getD_set_ne (fun he => hne he.symm) _ _,
        find?_isEnd_append_self _ b a w hfreshb]
      simp

/-- C6 counterexample: storing a second edge `(0,1)` in an edge-list or
adjacency-list graph does not make `GetEdge 0 1` return the new weight,
because `GetEdge` returns the first stored match and `SetEdge` appends. -/
theorem setEdge_duplicate_masks_new_weight :
    ((((⟨true, []⟩ : GraphEdgeList).SetEdge 0 1 1).SetEdge 0 1 2).GetEdge 0 1 = 1 ∧
     (((⟨true, []⟩ : GraphEdgeList).SetEdge 0 1 1).SetEdge 0 1 2).GetEdge 0 1 ≠ 2) ∧
    ((((GraphAdjecencyList.mk0 2 true).SetEdge 0 1 1).SetEdge 0 1 2).GetEdge 0 1 = 1 ∧
     (((GraphAdjecencyList.mk0 2 true).SetEdge 0 1 1).SetEdge 0 1 2).GetEdge 0 1 ≠ 2) := by
  decide

/-- C6 (amended): after `SetEdge a b w` with `w ≠ 0` on a directed graph,
`GetEdge a b = w` — unconditionally for the adjacency-matrix variant
(which overwrites its cell), and for the edge-list and adjacency-list
variants provided no edge `(a,b)` was already stored (those variants
append and `GetEdge` returns the first match, so an older edge masks the
new weight). -/
theorem directed_setEdge_then_getEdge :
    (∀ (g : GraphAdjecencyMatrix) (a b : Int) (w : Rat), g.WF → g.m_isDirected = true →
      vertexInRange a g.m_matrix.length = true → vertexInRange b g.m_matrix.length = true →
      w ≠ 0 → (g.SetEdge a b w).GetEdge a b = w) ∧
    (∀ (g : GraphEdgeList) (a b : Int) (w : Rat), g.m_isDirected = true → w ≠ 0 →
      (∀ e ∈ g.m_edgeList, ¬ (e.m_vertex1 = a ∧ e.m_vertex2 = b)) →
      (g.SetEdge a b w).GetEdge a b = w) ∧
    (∀ (g : GraphAdjecencyList) (a b : Int) (w : Rat), g.m_isDirected = true → w ≠ 0 →
      vertexInRange a g.m_vertices.length = true → vertexInRange b g.m_vertices.length = true →
      (∀ e ∈ g.m_vertices.getD a.toNat [], e.m_vertex2 ≠ b) →
      (g.SetEdge a b w).GetEdge a b = w) :=
  ⟨fun g a b w hwf _ ha hb hw => matrix_setEdge_getEdge_ab g a b w hwf ha hb hw,
   fun g a b w hdir hw hfresh => edgeList_setEdge_getEdge g a b w hdir hw hfresh,
   fun g a b w hdir hw ha hb hfresh =>
     adjList_setEdge_getEdge_directed g a b w hdir ha hb hw hfresh⟩

/-- Witness for `directed_setEdge_then_getEdge` at concrete graphs. -/
theorem directed_setEdge_then_getEdge_inst :
    ((GraphAdjecencyMatrix.mk0 2 true).SetEdge 0 1 5).GetEdge 0 1 = 5 ∧
    ((⟨true, []⟩ : GraphEdgeList).SetEdge 0 1 5).GetEdge 0 1 = 5 ∧
    ((GraphAdjecencyList.mk0 2 true).SetEdge 0 1 5).GetEdge 0 1 = 5 :=
  ⟨directed_setEdge_then_getEdge.1 _ 0 1 5 (by decide) rfl (by decide) (by decide) (by decide),
   directed_setEdge_then_getEdge.2.1 _ 0 1 5 rfl (by decide) (by decide),
   directed_setEdge_then_getEdge.2.2 _ 0 1 5 rfl (by decide) (by decide) (by decide)
     (by decide)⟩

/-- C7 counterexample: on an undirected adjacency-list graph already
holding an edge `(0,1)`, re-setting it with a new weight leaves both
`GetEdge 0 1` and `GetEdge 1 0` at the old weight, not the new one. -/
theorem undirected_setEdge_duplicate_counterexample :
    (((GraphAdjecencyList.mk0 2 false).SetEdge 0 1 1).SetEdge 0 1 2).GetEdge 0 1 = 1 ∧
    (((GraphAdjecencyList.mk0 2 false).SetEdge 0 1 1).SetEdge 0 1 2).GetEdge 1 0 = 1 ∧
    (((GraphAdjecencyList.mk0 2 false).SetEdge 0 1 1).SetEdge 0 1 2).GetEdge 0 1 ≠ 2 := by
  decide

/-- C7 (amended): on an undirected graph, `SetEdge a b w` with `w ≠ 0` and
in-range vertices mirrors the edge: `GetEdge a b = GetEdge b a = w` —
unconditionally for the adjacency-matrix variant, and for the
adjacency-list variant provided neither endpoint's list already holds the
edge (stored duplicates mask the new weight, as `GetEdge` returns the
first match). -/
theorem undirected_setEdge_symmetric :
    (∀ (g : GraphAdjecencyMatrix) (a b : Int) (w : Rat), g.WF → g.m_isDirected = false →
      vertexInRange a g.m_matrix.length = true → vertexInRange b g.m_matrix.length = true →
      w ≠ 0 →
      (g.SetEdge a b w).GetEdge a b = w ∧ (g.SetEdge a b w).GetEdge b a = w) ∧
    (∀ (g : GraphAdjecencyList) (a b : Int) (w : Rat), g.m_isDirected = false →
      vertexInRange a g.m_vertices.length = true → vertexInRange b g.m_vertices.length = true →
      w ≠ 0 →
      (∀ e ∈ g.m_vertices.getD a.toNat [], e.m_vertex2 ≠ b) →
      (∀ e ∈ g.m_vertices.getD b.toNat [], e.m_vertex2 ≠ a) →
      (g.SetEdge a b w).GetEdge a b = w ∧ (g.SetEdge a b w).GetEdge b a = w) :=
  ⟨fun g a b w hwf hdir ha hb hw =>
     ⟨matrix_setEdge_getEdge_ab g a b w hwf ha hb hw,
      matrix_setEdge_getEdge_ba g a b w hwf hdir ha hb hw⟩,
   fun g a b w hdir ha hb hw hfa hfb =>
     adjList_setEdge_getEdge_undirected g a b w hdir ha hb hw hfa hfb⟩

/-- Witness for `undirected_setEdge_symmetric` at concrete graphs. -/
theorem undirected_setEdge_symmetric_inst :
    (((GraphAdjecencyMatrix.mk0 2 false).SetEdge 0 1 5).GetEdge 0 1 = 5 ∧
     ((GraphAdjecencyMatrix.mk0 2 false).SetEdge 0 1 5).GetEdge 1 0 = 5) ∧
    (((GraphAdjecencyList.mk0 2 false).SetEdge 0 1 5).GetEdge 0 1 = 5 ∧
     ((GraphAdjecencyList.mk0 2 false).SetEdge 0 1 5).GetEdge 1 0 = 5) :=
  ⟨undirected_setEdge_symmetric.1 _ 0 1 5 (by decide) rfl (by decide) (by decide) (by decide),
   undirected_setEdge_symmetric.2 _ 0 1 5 rfl (by decide) (by decide) (by decide) (by decide)
     (by decide)⟩

/-- C8: `SetEdge` with weight exactly `0` is a silent no-op on every
variant, and so is an out-of-range index for the matrix and
adjacency-list variants; consequently a zero-weight edge is never stored. -/
theorem setEdge_noop_zero_or_out_of_range :
    (∀ (g : GraphEdgeList) (v1 v2 : Int), g.SetEdge v1 v2 0 = g) ∧
    (∀ (g : GraphAdjecencyMatrix) (v1 v2 : Int) (w : Rat),
      w = 0 ∨ ¬ (vertexInRange v1 g.m_matrix.length && vertexInRange v2 g.m_matrix.length) = true →
      g.SetEdge v1 v2 w = g) ∧
    (∀ (g : GraphAdjecencyList) (v1 v2 : Int) (w : Rat),
      w = 0 ∨ ¬ (vertexInRange v1 g.m_vertices.length && vertexInRange v2 g.m_vertices.length) = true →
      g.SetEdge v1 v2 w = g) := by
  refine ⟨fun g v1 v2 => by simp [GraphEdgeList.SetEdge], fun g v1 v2 w h => ?_,
    fun g v1 v2 w h => ?_⟩
  · rcases h with h | h
    · simp [GraphAdjecencyMatrix.SetEdge, h]
    · by_cases hw : w = 0
      · simp [GraphAdjecencyMatrix.SetEdge, hw]
      · simp [GraphAdjecencyMatrix.SetEdge, hw, h]
  · rcases h with h | h
    · simp [GraphAdjecencyList.SetEdge, h]
    · by_cases hw : w = 0
      · simp [GraphAdjecencyList.SetEdge, hw]
      · simp [GraphAdjecencyList.SetEdge, hw, h]

/-- Witness for `setEdge_noop_zero_or_out_of_range` at concrete graphs. -/
theorem setEdge_noop_inst :
    ((⟨true, []⟩ : GraphEdgeList).SetEdge 0 1 0 = (⟨true, []⟩ : GraphEdgeList)) ∧
    ((GraphAdjecencyMatrix.mk0 2 true).SetEdge 0 5 3 = GraphAdjecencyMatrix.mk0 2 true) ∧
    ((GraphAdjecencyList.mk0 2 true).SetEdge 0 1 0 = GraphAdjecencyList.mk0 2 true) :=
  ⟨setEdge_noop_zero_or_out_of_range.1 _ 0 1,
   setEdge_noop_zero_or_out_of_range.2.1 _ 0 5 3 (Or.inr (by decide)),
   setEdge_noop_zero_or_out_of_range.2.2 _ 0 1 0 (Or.inl rfl)⟩

/-! ### Binary search tree (`struct NodeBST` of `Trees.cpp`)

A null `NodeBST*` child is the `leaf` constructor.  The C++ parent
pointer is a non-owning back-reference used only to re-link during
`Delete`; the functional embedding returns the re-linked tree directly,
so the pointer has no separate representation. -/

inductive NodeBST where
  | leaf : NodeBST
  | node (m_left : NodeBST) (m_nodeData : Int) (m_right : NodeBST) : NodeBST
deriving DecidableEq, Repr

/-- `NodeBST::Insert`: go right on `data > m_nodeData`, else left (ties
left); a null child link becomes the new single node
(`new NodeBST(data, this)`). -/
def NodeBST.Insert : NodeBST → Int → NodeBST
  | .leaf, data => .node .leaf data .leaf
  | .node l d r, data =>
      if data > d then .node l d (Insert r data)
      else .node (Insert l data) d r

/-- `NodeBST::Find`: descend by comparison; `none` is the `nullptr`
"not found" result, `some` carries the found subtree. -/
def NodeBST.Find : NodeBST → Int → Option NodeBST
  | .leaf, _ => none
  | .node l d r, data =>
      if data > d then Find r data
      else if data < d then Find l data
      else some (.node l d r)

/-- The `maxInLeftChild` loop of `NodeBST::Delete` case 3: follow
`m_right` until null and read that node's value. -/
def NodeBST.maxNode : NodeBST → Int
  | .leaf => 0
  | .node _ d .leaf => d
  | .node _ _ (.node a x b) => maxNode (.node a x b)

/-- Effect of `maxInLeftChild->Delete(maxValue)` in `NodeBST::Delete`
case 3: the rightmost node has no right child, so it is removed via
case 1 (leaf detached) or case 2 (its left child spliced into its
parent slot). -/
def NodeBST.deleteMax : NodeBST → NodeBST
  | .leaf => .leaf
  | .node l _ .leaf => l
  | .node l d (.node a x b) => .node l d (deleteMax (.node a x b))

/-- `NodeBST::Delete` as a tree transformation: descend by comparison;
at the found node, case 1 removes a leaf, case 2 splices the single
child, case 3 copies the in-order predecessor's value
(`m_nodeData = maxInLeftChild->m_nodeData`) and deletes that
predecessor from the left subtree.  A miss leaves the tree unchanged
(the C++ returns `nullptr` without mutating). -/
def NodeBST.Delete : NodeBST → Int → NodeBST
  | .leaf, _ => .leaf
  | .node l d r, data =>
      if data > d then .node l d (Delete r data)
      else if data < d then .node (Delete l data) d r
      else
        match l, r with
        | .leaf, .leaf => .leaf
        | _, .leaf => l
        | .leaf, _ => r
        | _, _ => .node (deleteMax l) (maxNode l) r

/-- `TraverseInOrder(const NodeBST*)`: the emitted value sequence. -/
def TraverseInOrder : NodeBST → List Int
  | .leaf => []
  | .node l d r => TraverseInOrder l ++ d :: TraverseInOrder r

/-- The BST invariant of the spec: all left-subtree values are `≤` the
node value and all right-subtree values are `>` it, recursively. -/
def NodeBST.IsBST : NodeBST → Prop
  | .leaf => True
  | .node l d r =>
      (∀ x ∈ TraverseInOrder l, x ≤ d) ∧ (∀ x ∈ TraverseInOrder r, d < x) ∧
      IsBST l ∧ IsBST r

instance NodeBST.decIsBST : (t : NodeBST) → Decidable t.IsBST
  | .leaf => isTrue trivial
  | .node l d r =>
      haveI := decIsBST l
      haveI := decIsBST r
      by simp only [NodeBST.IsBST]; infer_instance

theorem inorder_eq_nil_iff {t : NodeBST} : TraverseInOrder t = [] ↔ t = .leaf := by
  cases t <;> simp [TraverseInOrder]

theorem sorted_of_isBST {t : NodeBST} (h : t.IsBST) :
    (TraverseInOrder t).Sorted (· ≤ ·) := by
  induction t with
  | leaf => exact List.sorted_nil
  | node l d r ihl ihr =>
    rcases h with ⟨hld, hrd, hl, hr⟩
    simp only [TraverseInOrder, List.Sorted]
    rw [List.pairwise_append]
    refine ⟨ihl hl, ?_, ?_⟩
    · rw [List.pairwise_cons]
      exact ⟨fun y hy => le_of_lt (hrd y hy), ihr hr⟩
    · intro x hx y hy
      rcases List.mem_cons.1 hy with rfl | hy
      · exact hld x hx
      · exact le_trans (hld x hx) (le_of_lt (hrd y hy))

theorem inorder_Insert_perm (t : NodeBST) (v : Int) :
    (TraverseInOrder (t.Insert v)).Perm (v :: TraverseInOrder t) := by
  induction t with
  | leaf => simp [NodeBST.Insert, TraverseInOrder]
  | node l d r ihl ihr =>
    by_cases h : v > d
    · simp only [NodeBST.Insert, if_pos h, TraverseInOrder]
      have h1 : (TraverseInOrder l ++ d :: TraverseInOrder (r.Insert v)).Perm
          (TraverseInOrder l ++ d :: v :: TraverseInOrder r) :=
        List.Perm.append_left _ (List.Perm.cons _ ihr)
      have h2 : (TraverseInOrder l ++ d :: v :: TraverseInOrder r).Perm
          (TraverseInOrder l ++ v :: d :: TraverseInOrder r) :=
        List.Perm.append_left _ (List.Perm.swap _ _ _)
      exact (h1.trans h2).trans List.perm_middle
    · simp only [NodeBST.Insert, if_neg h, TraverseInOrder]
      have h1 : (TraverseInOrder (l.Insert v) ++ d :: TraverseInOrder r).Perm
          ((v :: TraverseInOrder l) ++ d :: TraverseInOrder r) :=
        List.Perm.append_right _ ihl
      simpa using h1

theorem mem_inorder_Insert {t : NodeBST} {v x : Int} :
    x ∈ TraverseInOrder (t.Insert v) ↔ x = v ∨ x ∈ TraverseInOrder t := by
  rw [(inorder_Insert_perm t v).mem_iff, List.mem_cons]

theorem Insert_IsBST {t : NodeBST} (h : t.IsBST) (v : Int) : (t.Insert v).IsBST := by
  induction t with
  | leaf => simp [NodeBST.Insert, NodeBST.IsBST, TraverseInOrder]
  | node l d r ihl ihr =>
    rcases h with ⟨hld, hrd, hl, hr⟩
    by_cases hc : v > d
    · simp only [NodeBST.Insert, if_pos hc, NodeBST.IsBST]
      refine ⟨hld, ?_, hl, ihr hr⟩
      intro x hx
      rcases mem_inorder_Insert.1 hx with rfl | hx
      · exact hc
      · exact hrd x hx
    · simp only [NodeBST.Insert, if_neg hc, NodeBST.IsBST]
      refine ⟨?_, hrd, ihl hl, hr⟩
      intro x hx
      rcases mem_inorder_Insert.1 hx with rfl | hx
      · exact le_of_not_lt hc
      · exact hld x hx

theorem Find_ne_none_mem {t : NodeBST} {v : Int} (h : t.Find v ≠ none) :
    v ∈ TraverseInOrder t := by
  induction t with
  | leaf => simp [NodeBST.Find] at h
  | node l d r ihl ihr =>
    simp only [TraverseInOrder, List.mem_append, List.mem_cons]
    by_cases hgt : v > d
    · simp only [NodeBST.Find, if_pos hgt] at h
      exact Or.inr (Or.inr (ihr h))
    · by_cases hlt : v < d
      · simp only [NodeBST.Find, if_neg hgt, if_pos hlt] at h
        exact Or.inl (ihl h)
      · exact Or.inr (Or.inl (le_antisymm (le_of_not_lt hgt) (le_of_not_lt hlt)))

theorem Find_Insert_ne_none (t : NodeBST) (v : Int) : (t.Insert v).Find v ≠ none := by
  induction t with
  | leaf => simp [NodeBST.Insert, NodeBST.Find]
  | node l d r ihl ihr =>
    by_cases hgt : v > d
    · simpa [NodeBST.Insert, if_pos hgt, NodeBST.Find] using ihr
    · by_cases hlt : v < d
      · simpa [NodeBST.Insert, if_neg hgt, NodeBST.Find, hlt] using ihl
      · simp [NodeBST.Insert, if_neg hgt, NodeBST.Find, hlt, hgt]

theorem inorder_deleteMax_concat {t : NodeBST} (h : t ≠ .leaf) :
    TraverseInOrder t = TraverseInOrder t.deleteMax ++ [t.maxNode] := by
  induction t with
  | leaf => exact absurd rfl h
  | node l d r ihl ihr =>
    cases r with
    | leaf => simp [TraverseInOrder, NodeBST.deleteMax, NodeBST.maxNode]
    | node a x b =>
      have hr : TraverseInOrder (NodeBST.node a x b) =
          TraverseInOrder (NodeBST.node a x b).deleteMax ++
            [(NodeBST.node a x b).maxNode] := ihr (by simp)
      show TraverseInOrder l ++ d :: TraverseInOrder (NodeBST.node a x b) =
          (TraverseInOrder l ++ d :: TraverseInOrder (NodeBST.node a x b).deleteMax) ++
            [(NodeBST.node a x b).maxNode]
      rw [hr]
      simp

theorem maxNode_mem {t : NodeBST} (h : t ≠ .leaf) : t.maxNode ∈ TraverseInOrder t := by
  rw [inorder_deleteMax_concat h]
  simp

theorem mem_deleteMax_subset {t : NodeBST} {x : Int}
    (hx : x ∈ TraverseInOrder t.deleteMax) : x ∈ TraverseInOrder t := by
  by_cases h : t = .leaf
  · subst h; simp [NodeBST.deleteMax, TraverseInOrder] at hx
  · rw [inorder_deleteMax_concat h]
    exact List.mem_append_left _ hx

theorem le_maxNode {t : NodeBST} (hbst : t.IsBST) {x : Int}
    (hx : x ∈ TraverseInOrder t) : x ≤ t.maxNode := by
  induction t with
  | leaf => simp [TraverseInOrder] at hx
  | node l d r ihl ihr =>
    rcases hbst with ⟨hld, hrd, hl, hr⟩
    cases r with
    | leaf =>
      simp only [NodeBST.maxNode]
      rcases List.mem_append.1 hx with hx | hx
      · exact hld x hx
      · have hxd : x = d := by simpa [TraverseInOrder] using hx
        exact le_of_eq hxd
    | node a y b =>
      have hmax : d < (NodeBST.node a y b).maxNode :=
        hrd _ (maxNode_mem (by simp))
      simp only [NodeBST.maxNode]
      rcases List.mem_append.1 hx with hx | hx
      · exact le_trans (hld x hx) (le_of_lt hmax)
      · rcases List.mem_cons.1 hx with rfl | hx
        · exact le_of_lt hmax
        · exact ihr hr hx

theorem deleteMax_IsBST {t : NodeBST} (hbst : t.IsBST) : t.deleteMax.IsBST := by
  induction t with
  | leaf => exact trivial
  | node l d r ihl ihr =>
    rcases hbst with ⟨hld, hrd, hl, hr⟩
    cases r with
    | leaf => simpa [NodeBST.deleteMax] using hl
    | node a y b =>
      simp only [NodeBST.deleteMax, NodeBST.IsBST]
      exact ⟨hld, fun x hx => hrd x (mem_deleteMax_subset hx), hl, ihr hr⟩

theorem mem_Delete_subset {t : NodeBST} {v : Int} :
    ∀ {x : Int}, x ∈ TraverseInOrder (t.Delete v) → x ∈ TraverseInOrder t := by
  induction t with
  | leaf => intro x hx; simp [NodeBST.Delete, TraverseInOrder] at hx
  | node l d r ihl ihr =>
    intro x hx
    by_cases hgt : v > d
    · simp only [NodeBST.Delete, if_pos hgt, TraverseInOrder, List.mem_append,
        List.mem_cons] at hx ⊢
      rcases hx with hx | hx | hx
      · exact Or.inl hx
      · exact Or.inr (Or.inl hx)
      · exact Or.inr (Or.inr (ihr hx))
    · by_cases hlt : v < d
      · simp only [NodeBST.Delete, if_neg hgt, if_pos hlt, TraverseInOrder,
          List.mem_append, List.mem_cons] at hx ⊢
        rcases hx with hx | hx | hx
        · exact Or.inl (ihl hx)
        · exact Or.inr (Or.inl hx)
        · exact Or.inr (Or.inr hx)
      · cases l with
        | leaf =>
          cases r with
          | leaf => simp [NodeBST.Delete, if_neg hgt, if_neg hlt, TraverseInOrder] at hx
          | node a y b =>
            simp only [NodeBST.Delete, if_neg hgt, if_neg hlt] at hx
            simp only [TraverseInOrder, List.mem_append, List.mem_cons] at hx ⊢
            tauto
        | node la lx lb =>
          cases r with
          | leaf =>
            simp only [NodeBST.Delete, if_neg hgt, if_neg hlt] at hx
            simp only [TraverseInOrder, List.mem_append, List.mem_cons] at hx ⊢
            tauto
          | node a y b =>
            simp only [NodeBST.Delete, if_neg hgt, if_neg hlt] at hx
            simp only [TraverseInOrder, List.mem_append, List.mem_cons] at hx ⊢
            rcases hx with hx | hx | hx
            · have hmem := mem_deleteMax_subset hx
              simp only [TraverseInOrder, List.mem_append, List.mem_cons] at hmem
              tauto
            · rcases hx with rfl
              have hmem := @maxNode_mem (NodeBST.node la lx lb) (by simp)
              simp only [TraverseInOrder, List.mem_append, List.mem_cons] at hmem
              tauto
            · tauto

theorem Delete_perm {t : NodeBST} (hbst : t.IsBST) {v : Int}
    (hv : v ∈ TraverseInOrder t) :
    (TraverseInOrder (t.Delete v)).Perm ((TraverseInOrder t).erase v) := by
  induction t with
  | leaf => simp [TraverseInOrder] at hv
  | node l d r ihl ihr =>
    rcases hbst with ⟨hld, hrd, hl, hr⟩
    by_cases hgt : v > d
    · have hvl : v ∉ TraverseInOrder l := fun hx => absurd (hld v hx) (not_le.2 hgt)
      have hvd : v ≠ d := ne_of_gt hgt
      have hvr : v ∈ TraverseInOrder r := by
        rcases List.mem_append.1 hv with hx | hx
        · exact absurd hx hvl
        · rcases List.mem_cons.1 hx with rfl | hx
          · exact absurd rfl hvd
          · exact hx
      simp only [NodeBST.Delete, if_pos hgt, TraverseInOrder]
      rw [List.erase_append_right _ hvl,
        List.erase_cons_tail (by simpa using fun h : d = v => hvd h.symm)]
      exact List.Perm.append_left _ (List.Perm.cons _ (ihr hr hvr))
    · by_cases hlt : v < d
      · have hvd : v ≠ d := ne_of_lt hlt
        have hvr : v ∉ TraverseInOrder r := fun hx => absurd (hrd v hx) (not_lt.2 (le_of_lt hlt))
        have hvl : v ∈ TraverseInOrder l := by
          rcases List.mem_append.1 hv with hx | hx
          · exact hx
          · rcases List.mem_cons.1 hx with rfl | hx
            · exact absurd rfl hvd
            · exact absurd hx hvr
        simp only [NodeBST.Delete, if_neg hgt, if_pos hlt, TraverseInOrder]
        rw [List.erase_append_left _ hvl]
        exact List.Perm.append_right _ (ihl hl hvl)
      · have hvd : v = d := le_antisymm (le_of_not_lt hgt) (le_of_not_lt hlt)
        subst hvd
        cases l with
        | leaf =>
          cases r with
          | leaf => simp [NodeBST.Delete, if_neg hgt, if_neg hlt, TraverseInOrder]
          | node a y b =>
            simp only [NodeBST.Delete, if_neg hgt, if_neg hlt, TraverseInOrder]
            simp [List.erase_cons_head]
        | node la lx lb =>
          cases r with
          | leaf =>
            simp only [NodeBST.Delete, if_neg hgt, if_neg hlt, TraverseInOrder]
            by_cases hdl : v ∈ TraverseInOrder la ++ lx :: TraverseInOrder lb
            · rw [List.erase_append_left _ hdl]
              refine (List.perm_cons_erase hdl).trans ?_
              exact (List.perm_append_singleton _ _).symm
            · rw [List.erase_append_right _ hdl]
              simp
          | node a y b =>
            simp only [NodeBST.Delete, if_neg hgt, if_neg hlt, TraverseInOrder]
            have hconc := @inorder_deleteMax_concat (NodeBST.node la lx lb) (by simp)
            simp only [TraverseInOrder] at hconc
            rw [hconc]
            have h2 := (@List.perm_middle Int v
              (TraverseInOrder (NodeBST.node la lx lb).deleteMax ++
                [(NodeBST.node la lx lb).maxNode])
              (TraverseInOrder a ++ y :: TraverseInOrder b)).erase v
            rw [List.erase_cons_head] at h2
            have h4 : (TraverseInOrder (NodeBST.node la lx lb).deleteMax ++
                  [(NodeBST.node la lx lb).maxNode]) ++
                  (TraverseInOrder a ++ y :: TraverseInOrder b) =
                TraverseInOrder (NodeBST.node la lx lb).deleteMax ++
                  (NodeBST.node la lx lb).maxNode ::
                    (TraverseInOrder a ++ y :: TraverseInOrder b) := by simp
            rw [h4] at h2
            exact h2.symm

theorem Delete_IsBST {t : NodeBST} (hbst : t.IsBST) (v : Int) : (t.Delete v).IsBST := by
  induction t with
  | leaf => simp only [NodeBST.Delete]; exact trivial
  | node l d r ihl ihr =>
    rcases hbst with ⟨hld, hrd, hl, hr⟩
    by_cases hgt : v > d
    · simp only [NodeBST.Delete, if_pos hgt, NodeBST.IsBST]
      exact ⟨hld, fun x hx => hrd x (mem_Delete_subset hx), hl, ihr hr⟩
    · by_cases hlt : v < d
      · simp only [NodeBST.Delete, if_neg hgt, if_pos hlt, NodeBST.IsBST]
        exact ⟨fun x hx => hld x (mem_Delete_subset hx), hrd, ihl hl, hr⟩
      · cases l with
        | leaf =>
          cases r with
          | leaf =>
            simp only [NodeBST.Delete, if_neg hgt, if_neg hlt]
            exact trivial
          | node a y b =>
            simp only [NodeBST.Delete, if_neg hgt, if_neg hlt]
            exact hr
        | node la lx lb =>
          cases r with
          | leaf =>
            simp only [NodeBST.Delete, if_neg hgt, if_neg hlt]
            exact hl
          | node a y b =>
            simp only [NodeBST.Delete, if_neg hgt, if_neg hlt, NodeBST.IsBST]
            refine ⟨?_, ?_, deleteMax_IsBST hl, hr⟩
            · intro x hx
              exact le_maxNode hl (mem_deleteMax_subset hx)
            · intro x hx
              have hmaxle : (NodeBST.node la lx lb).maxNode ≤ d :=
                hld _ (maxNode_mem (by simp))
              have hdx : d < x := by
                have := hrd x
                simp only [TraverseInOrder] at this ⊢
                exact this hx
              exact lt_of_le_of_lt hmaxle hdx

/-- Whether the node that `NodeBST::Delete` finds for `data` (the first one
reached by its descent) has two children, i.e. case 3 of the deletion. -/
def NodeBST.foundTwoChildren : NodeBST → Int → Bool
  | .leaf, _ => false
  | .node l d r, data =>
      if data > d then foundTwoChildren r data
      else if data < d then foundTwoChildren l data
      else decide (l ≠ .leaf) && decide (r ≠ .leaf)

theorem mem_of_foundTwoChildren {t : NodeBST} {v : Int}
    (h : t.foundTwoChildren v = true) : v ∈ TraverseInOrder t := by
  induction t with
  | leaf => simp [NodeBST.foundTwoChildren] at h
  | node l d r ihl ihr =>
    simp only [TraverseInOrder]
    by_cases hgt : v > d
    · simp only [NodeBST.foundTwoChildren, if_pos hgt] at h
      exact List.mem_append_right _ (List.mem_cons_of_mem _ (ihr h))
    · by_cases hlt : v < d
      · simp only [NodeBST.foundTwoChildren, if_neg hgt, if_pos hlt] at h
        exact List.mem_append_left _ (ihl h)
      · have hvd : v = d := le_antisymm (le_of_not_lt hgt) (le_of_not_lt hlt)
        subst hvd
        exact List.mem_append_right _ (List.mem_cons_self _ _)

theorem foldl_Insert_IsBST {t : NodeBST} (h : t.IsBST) (vs : List Int) :
    (vs.foldl NodeBST.Insert t).IsBST := by
  induction vs generalizing t with
  | nil => exact h
  | cons v vs ih => exact ih (Insert_IsBST h v)

theorem foldl_Insert_perm (t : NodeBST) (vs : List Int) :
    (TraverseInOrder (vs.foldl NodeBST.Insert t)).Perm (TraverseInOrder t ++ vs) := by
  induction vs generalizing t with
  | nil => simp
  | cons v vs ih =>
    refine (ih (t.Insert v)).trans ?_
    refine (List.Perm.append_right vs (inorder_Insert_perm t v)).trans ?_
    simpa using (@List.perm_middle Int v (TraverseInOrder t) vs).symm

/-- C3: inserting any sequence of values into a single-node root yields a
tree whose in-order traversal is sorted (non-decreasing) and lists
exactly the inserted values; i.e. `Insert` maintains the BST property
with ties routed left. -/
theorem insert_fold_inorder_sorted_perm (rootData : Int) (vs : List Int) :
    (TraverseInOrder (vs.foldl NodeBST.Insert
      (NodeBST.node .leaf rootData .leaf))).Sorted (· ≤ ·) ∧
    (TraverseInOrder (vs.foldl NodeBST.Insert
      (NodeBST.node .leaf rootData .leaf))).Perm (rootData :: vs) := by
  have hroot : (NodeBST.node .leaf rootData .leaf).IsBST := by
    simp [NodeBST.IsBST, TraverseInOrder]
  refine ⟨sorted_of_isBST (foldl_Insert_IsBST hroot vs), ?_⟩
  refine (foldl_Insert_perm _ vs).trans ?_
  simp [TraverseInOrder]

/-- C4: on a BST, when `Delete`'s descent finds a node with two children,
the deletion (copy of the in-order predecessor's value, removal of the
predecessor) keeps the in-order traversal sorted and removes exactly one
value.  This is the intended value-level behaviour; the C++ additionally
has a memory fault in the splice cases, see the claim record. -/
theorem delete_two_children_sorted_count {t : NodeBST} {v : Int}
    (hbst : t.IsBST) (h2 : t.foundTwoChildren v = true) :
    (TraverseInOrder (t.Delete v)).Sorted (· ≤ ·) ∧
    (TraverseInOrder (t.Delete v)).length + 1 = (TraverseInOrder t).length := by
  have hv := mem_of_foundTwoChildren h2
  refine ⟨sorted_of_isBST (Delete_IsBST hbst v), ?_⟩
  have hperm := Delete_perm hbst hv
  rw [hperm.length_eq, List.length_erase_of_mem hv]
  have hpos : 0 < (TraverseInOrder t).length :=
    List.length_pos.2 (fun h0 => by rw [h0] at hv; exact absurd hv (List.not_mem_nil v))
  omega

/-- Witness for `delete_two_children_sorted_count` on the tree `2(1,3)`. -/
theorem delete_two_children_inst :
    (TraverseInOrder ((NodeBST.node (NodeBST.node .leaf 1 .leaf) 2
        (NodeBST.node .leaf 3 .leaf)).Delete 2)).Sorted (· ≤ ·) ∧
    (TraverseInOrder ((NodeBST.node (NodeBST.node .leaf 1 .leaf) 2
        (NodeBST.node .leaf 3 .leaf)).Delete 2)).length + 1 =
      (TraverseInOrder (NodeBST.node (NodeBST.node .leaf 1 .leaf) 2
        (NodeBST.node .leaf 3 .leaf))).length :=
  delete_two_children_sorted_count (by decide) (by decide)

/-- C5 counterexample: the tree built by inserting `2`, `7`, then a second
`5` under a root `5` contains `5` twice; deleting `5` (a two-children
case whose in-order predecessor is the duplicate leaf `5`) leaves the
other occurrence in place, so `Find 5` still succeeds. -/
theorem find_after_delete_duplicate :
    (TraverseInOrder ((((NodeBST.node .leaf 5 .leaf).Insert 2).Insert 7).Insert 5)).count 5
        = 2 ∧
    (((((NodeBST.node .leaf 5 .leaf).Insert 2).Insert 7).Insert 5).Delete 5).Find 5
        ≠ none := by
  decide

/-- C5 (amended): `Find v` succeeds after `Insert v` on any tree; and on a
BST holding at most one occurrence of `v`, `Find v` fails after
`Delete v` (with no re-insertion).  With duplicate occurrences the
second half is false, as `Delete` removes only one node. -/
theorem find_insert_find_delete (t : NodeBST) (v : Int) :
    (t.Insert v).Find v ≠ none ∧
    (t.IsBST → (TraverseInOrder t).count v ≤ 1 → (t.Delete v).Find v = none) := by
  refine ⟨Find_Insert_ne_none t v, fun hbst hcount => ?_⟩
  by_cases hv : v ∈ TraverseInOrder t
  · have hperm := Delete_perm hbst hv
    have h1 : (TraverseInOrder t).count v = 1 :=
      le_antisymm hcount (List.count_pos_iff.2 hv)
    have h2 : (TraverseInOrder (t.Delete v)).count v = 0 := by
      rw [hperm.count_eq, List.count_erase_self, h1]
    have hv' : v ∉ TraverseInOrder (t.Delete v) := List.count_eq_zero.1 h2
    by_contra hne
    exact hv' (Find_ne_none_mem hne)
  · have hv' : v ∉ TraverseInOrder (t.Delete v) := fun hmem => hv (mem_Delete_subset hmem)
    by_contra hne
    exact hv' (Find_ne_none_mem hne)

/-- Witness for `find_insert_find_delete` on the single-node tree `1`. -/
theorem find_insert_find_delete_inst :
    ((NodeBST.node .leaf 1 .leaf).Insert 2).Find 2 ≠ none ∧
    ((NodeBST.node .leaf 1 .leaf).Delete 2).Find 2 = none :=
  ⟨(find_insert_find_delete (NodeBST.node .leaf 1 .leaf) 2).1,
   (find_insert_find_delete (NodeBST.node .leaf 1 .leaf) 2).2 (by decide) (by decide)⟩

/-! ### Graph traversals (`Graphs.cpp` lines 431-504)

The traversal functions only use the abstract `Graph::GetEdges`
capability, so they are embedded over a record holding just that
function; each storage variant provides it via `toGraph`.

The C++ recursion/loops terminate because the stored graphs are finite;
the embedding makes this explicit with a `fuel` argument.  All theorems
below hold for every sufficiently large fuel (any bound above the number
of distinct vertices), which is how the C++ behaviour is recovered. -/

structure Graph where
  GetEdges : Int → List Edge

def GraphEdgeList.toGraph (g : GraphEdgeList) : Graph := ⟨g.GetEdges⟩

def GraphAdjecencyMatrix.toGraph (g : GraphAdjecencyMatrix) : Graph := ⟨g.GetEdges⟩

def GraphAdjecencyList.toGraph (g : GraphAdjecencyList) : Graph := ⟨g.GetEdges⟩

/-- The successors a traversal follows from `v`: the `m_vertex2` field of
each edge returned by `GetEdges v`. -/
def succs (g : Graph) (v : Int) : List Int := (g.GetEdges v).map Edge.m_vertex2

/-- Reachability along the successor relation the traversals follow. -/
def Reaches (g : Graph) : Int → Int → Prop :=
  Relation.ReflTransGen (fun a b => b ∈ succs g a)

/-- The `for_each` body of `TraverseDepthFirst_Recursive` applied to the
edge list: for each edge in order, recurse (`dfsNext`) on an unvisited
target.  First component: the visited vector; second: the printed list. -/
def dfsRecEdges (dfsNext : Int → List Int → List Int × List Int) :
    List Edge → List Int → List Int × List Int
  | [], visited => (visited, [])
  | e :: es, visited =>
    if e.m_vertex2 ∈ visited then dfsRecEdges dfsNext es visited
    else
      let r := dfsNext e.m_vertex2 visited
      let r2 := dfsRecEdges dfsNext es r.1
      (r2.1, r.2 ++ r2.2)

/-- Body of `TraverseDepthFirst_Recursive` for a non-null graph: print
`v`, push it on the visited vector, then walk the edges. -/
def dfsRecGo (g : Graph) : Nat → Int → List Int → List Int × List Int
  | 0, _, visited => (visited, [])
  | fuel+1, v, visited =>
    let r := dfsRecEdges (dfsRecGo g fuel) (g.GetEdges v) (visited ++ [v])
    (r.1, v :: r.2)

/-- `TraverseDepthFirst_Recursive(const Graph*, int, std::vector<int>&)`:
`none` models the null graph pointer, which returns immediately.
Returns (final visited vector, printed vertex list). -/
def TraverseDepthFirst_Recursive (graph : Option Graph) (fuel : Nat) (v : Int)
    (visited : List Int) : List Int × List Int :=
  match graph with
  | none => (visited, [])
  | some g => dfsRecGo g fuel v visited

/-- One edge of the `for_each` in `TraverseDepthFirst_NonRecursive`:
push an unvisited target on the stack and mark it visited.
`acc = (stack, visited)`; the stack top is the list head. -/
def dfsPush (acc : List Int × List Int) (e : Edge) : List Int × List Int :=
  if e.m_vertex2 ∈ acc.2 then acc else (e.m_vertex2 :: acc.1, acc.2 ++ [e.m_vertex2])

/-- The `while (!stack.empty())` loop of `TraverseDepthFirst_NonRecursive`:
pop, print, then scan the edges in reverse order. -/
def dfsIterLoop (g : Graph) : Nat → List Int → List Int → List Int → List Int × List Int
  | 0, _, visited, out => (visited, out)
  | _+1, [], visited, out => (visited, out)
  | fuel+1, vertex :: stack, visited, out =>
    let s := ((g.GetEdges vertex).reverse).foldl dfsPush (stack, visited)
    dfsIterLoop g fuel s.1 s.2 (out ++ [vertex])

/-- `TraverseDepthFirst_NonRecursive(const Graph*, int)`: seed the stack
with `v` (marked visited immediately) and run the loop; the result is
the printed vertex list. -/
def TraverseDepthFirst_NonRecursive (g : Graph) (fuel : Nat) (v : Int) : List Int :=
  (dfsIterLoop g fuel [v] [v] []).2

/-- One edge of the `for_each` in `TraverseBreathFirst_NonRecursive`:
enqueue an unvisited target (at the back) and mark it visited.
`acc = (queue, visited)`; the queue front is the list head. -/
def bfsPush (acc : List Int × List Int) (e : Edge) : List Int × List Int :=
  if e.m_vertex2 ∈ acc.2 then acc else (acc.1 ++ [e.m_vertex2], acc.2 ++ [e.m_vertex2])

/-- The `while (!queue.empty())` loop of `TraverseBreathFirst_NonRecursive`. -/
def bfsLoop (g : Graph) : Nat → List Int → List Int → List Int → List Int × List Int
  | 0, _, visited, out => (visited, out)
  | _+1, [], visited, out => (visited, out)
  | fuel+1, vertex :: queue, visited, out =>
    let s := (g.GetEdges vertex).foldl bfsPush (queue, visited)
    bfsLoop g fuel s.1 s.2 (out ++ [vertex])

/-- `TraverseBreathFirst_NonRecursive(const Graph*, int)` (source
spelling kept): seed the queue with `v` and run the loop. -/
def TraverseBreathFirst_NonRecursive (g : Graph) (fuel : Nat) (v : Int) : List Int :=
  (bfsLoop g fuel [v] [v] []).2

theorem dfsIterLoop_nil (g : Graph) (fuel : Nat) (vis out : List Int) :
    dfsIterLoop g fuel [] vis out = (vis, out) := by
  cases fuel <;> rfl

theorem bfsLoop_nil (g : Graph) (fuel : Nat) (vis out : List Int) :
    bfsLoop g fuel [] vis out = (vis, out) := by
  cases fuel <;> rfl

/-- C10: calling the recursive DFS with a null graph pointer emits
nothing and returns the visited accumulator unchanged, for every start
vertex, accumulator state and fuel. -/
theorem dfsRec_null_graph (fuel : Nat) (v : Int) (visited : List Int) :
    TraverseDepthFirst_Recursive none fuel v visited = (visited, []) := rfl

/-- C9 counterexample: on a 2-vertex adjacency-matrix graph with no
edges, the out-of-range start vertex `5` has `GetEdges 5 = []`, yet all
three traversals emit `[5]` (the start vertex itself), not the empty
sequence. -/
theorem invalid_start_emits_nonempty :
    (GraphAdjecencyMatrix.mk0 2 true).toGraph.GetEdges 5 = [] ∧
    (TraverseDepthFirst_Recursive (some (GraphAdjecencyMatrix.mk0 2 true).toGraph)
        5 5 []).2 = [5] ∧
    TraverseDepthFirst_NonRecursive (GraphAdjecencyMatrix.mk0 2 true).toGraph 5 5 = [5] ∧
    TraverseBreathFirst_NonRecursive (GraphAdjecencyMatrix.mk0 2 true).toGraph 5 5 = [5] ∧
    (TraverseDepthFirst_Recursive (some (GraphAdjecencyMatrix.mk0 2 true).toGraph)
        5 5 []).2 ≠ [] := by
  decide

/-- C9 (amended): a start vertex for which `GetEdges` returns the empty
sequence yields the one-element traversal `[v]` — each traversal prints
the seed vertex before consulting its (empty) edge list — and no error
is raised (the functions are total). -/
theorem invalid_start_emits_only_start (g : Graph) (v : Int) (fuel : Nat)
    (hf : 1 ≤ fuel) (hempty : g.GetEdges v = []) :
    (TraverseDepthFirst_Recursive (some g) fuel v []).2 = [v] ∧
    TraverseDepthFirst_NonRecursive g fuel v = [v] ∧
    TraverseBreathFirst_NonRecursive g fuel v = [v] := by
  obtain ⟨n, rfl⟩ : ∃ n, fuel = n + 1 := ⟨fuel - 1, by omega⟩
  refine ⟨?_, ?_, ?_⟩
  · simp [TraverseDepthFirst_Recursive, dfsRecGo, hempty, dfsRecEdges]
  · simp [TraverseDepthFirst_NonRecursive, dfsIterLoop, hempty, dfsIterLoop_nil]
  · simp [TraverseBreathFirst_NonRecursive, bfsLoop, hempty, bfsLoop_nil]

/-- Witness for `invalid_start_emits_only_start` at a concrete graph. -/
theorem invalid_start_emits_only_start_inst :
    (TraverseDepthFirst_Recursive (some (GraphAdjecencyList.mk0 3 true).toGraph)
        7 9 []).2 = [9] ∧
    TraverseDepthFirst_NonRecursive (GraphAdjecencyList.mk0 3 true).toGraph 7 9 = [9] ∧
    TraverseBreathFirst_NonRecursive (GraphAdjecencyList.mk0 3 true).toGraph 7 9 = [9] :=
  invalid_start_emits_only_start _ 9 7 (by decide) (by decide)

/-- The directed adjacency-list graph 0→1, 0→2, 1→2, 1→3: recursive DFS
reaches 2 through 1 first, while the iterative DFS has already marked 2
at push time from 0 and pops it last. -/
def gOrderCx : GraphAdjecencyList :=
  ((((GraphAdjecencyList.mk0 4 true).SetEdge 0 1 1).SetEdge 0 2 1).SetEdge
      1 2 1).SetEdge 1 3 1

/-- C2 counterexample: the recursive and iterative DFS emit different
orders on `gOrderCx` (`[0,1,2,3]` vs `[0,1,3,2]`). -/
theorem dfs_rec_iter_order_differs :
    (TraverseDepthFirst_Recursive (some gOrderCx.toGraph) 10 0 []).2 = [0, 1, 2, 3] ∧
    TraverseDepthFirst_NonRecursive gOrderCx.toGraph 10 0 = [0, 1, 3, 2] ∧
    (TraverseDepthFirst_Recursive (some gOrderCx.toGraph) 10 0 []).2 ≠
      TraverseDepthFirst_NonRecursive gOrderCx.toGraph 10 0 := by
  decide

/-- Graph-theoretic reachability in an (undirected) edge-list graph:
steps between any two vertices joined by a stored edge in either
orientation, which is what `GetEdge` reports for an undirected graph. -/
def undirEdgeReach (g : GraphEdgeList) : Int → Int → Prop :=
  Relation.ReflTransGen (fun a b => g.GetEdge a b ≠ 0)

/-- C1 counterexample: in the undirected edge-list graph with single
edge `(0,1)`, vertex `0` is reachable from `1` (the undirected edge
joins them), but all three traversals started at `1` emit only `[1]`:
`GetEdges 1` returns the stored edge `(0,1)` unchanged and the
traversals follow only `m_vertex2`, which is `1` itself. -/
theorem undirected_edgeList_traversal_misses_reachable :
    undirEdgeReach ((⟨false, []⟩ : GraphEdgeList).SetEdge 0 1 5) 1 0 ∧
    (TraverseDepthFirst_Recursive
        (some ((⟨false, []⟩ : GraphEdgeList).SetEdge 0 1 5).toGraph) 10 1 []).2 = [1] ∧
    TraverseDepthFirst_NonRecursive
        ((⟨false, []⟩ : GraphEdgeList).SetEdge 0 1 5).toGraph 10 1 = [1] ∧
    TraverseBreathFirst_NonRecursive
        ((⟨false, []⟩ : GraphEdgeList).SetEdge 0 1 5).toGraph 10 1 = [1] := by
  exact ⟨Relation.ReflTransGen.single (by decide), by decide, by decide, by decide⟩

/-! ### Structural lemmas for the recursive DFS -/

theorem dfsRecEdges_visited_append
    {dfsNext : Int → List Int → List Int × List Int}
    (hNext : ∀ v vis, (dfsNext v vis).1 = vis ++ (dfsNext v vis).2) :
    ∀ (es : List Edge) (vis : List Int),
      (dfsRecEdges dfsNext es vis).1 = vis ++ (dfsRecEdges dfsNext es vis).2 := by
  intro es
  induction es with
  | nil => intro vis; simp [dfsRecEdges]
  | cons e es ih =>
    intro vis
    by_cases hmem : e.m_vertex2 ∈ vis
    · simpa [dfsRecEdges, hmem] using ih vis
    · simp only [dfsRecEdges, if_neg hmem]
      rw [ih, hNext]
      simp

theorem dfsRecGo_visited_append (g : Graph) :
    ∀ (fuel : Nat) (v : Int) (vis : List Int),
      (dfsRecGo g fuel v vis).1 = vis ++ (dfsRecGo g fuel v vis).2 := by
  intro fuel
  induction fuel with
  | zero => intro v vis; simp [dfsRecGo]
  | succ n ih =>
    intro v vis
    simp only [dfsRecGo]
    rw [dfsRecEdges_visited_append (fun v vis => ih v vis)]
    simp

theorem dfsRecGo_mem_start (g : Graph) {fuel : Nat} (hf : 1 ≤ fuel) (v : Int)
    (vis : List Int) : v ∈ (dfsRecGo g fuel v vis).1 := by
  obtain ⟨n, rfl⟩ : ∃ n, fuel = n + 1 := ⟨fuel - 1, by omega⟩
  simp only [dfsRecGo]
  rw [dfsRecEdges_visited_append (fun v vis => dfsRecGo_visited_append g n v vis)]
  simp

theorem dfsRecEdges_sound (g : Graph)
    {dfsNext : Int → List Int → List Int × List Int}
    (hNext : ∀ v vis x, x ∈ (dfsNext v vis).2 → Reaches g v x) :
    ∀ (es : List Edge) (vis : List Int) (x : Int),
      x ∈ (dfsRecEdges dfsNext es vis).2 → ∃ e ∈ es, Reaches g e.m_vertex2 x := by
  intro es
  induction es with
  | nil => intro vis x hx; simp [dfsRecEdges] at hx
  | cons e es ih =>
    intro vis x hx
    by_cases hmem : e.m_vertex2 ∈ vis
    · simp only [dfsRecEdges, if_pos hmem] at hx
      obtain ⟨e', he', hr⟩ := ih vis x hx
      exact ⟨e', List.mem_cons_of_mem _ he', hr⟩
    · simp only [dfsRecEdges, if_neg hmem, List.mem_append] at hx
      rcases hx with hx | hx
      · exact ⟨e, List.mem_cons_self _ _, hNext _ _ _ hx⟩
      · obtain ⟨e', he', hr⟩ := ih _ x hx
        exact ⟨e', List.mem_cons_of_mem _ he', hr⟩

theorem mem_succs_of_mem_getEdges {g : Graph} {u : Int} {e : Edge}
    (he : e ∈ g.GetEdges u) : e.m_vertex2 ∈ succs g u :=
  List.mem_map_of_mem Edge.m_vertex2 he

theorem dfsRecGo_sound (g : Graph) :
    ∀ (fuel : Nat) (v : Int) (vis : List Int) (x : Int),
      x ∈ (dfsRecGo g fuel v vis).2 → Reaches g v x := by
  intro fuel
  induction fuel with
  | zero => intro v vis x hx; simp [dfsRecGo] at hx
  | succ n ih =>
    intro v vis x hx
    simp only [dfsRecGo, List.mem_cons] at hx
    rcases hx with rfl | hx
    · exact Relation.ReflTransGen.refl
    · obtain ⟨e, he, hr⟩ := dfsRecEdges_sound g (fun v vis x => ih v vis x) _ _ x hx
      exact Relation.ReflTransGen.head (mem_succs_of_mem_getEdges he) hr

theorem dfsRecEdges_nodup
    {dfsNext : Int → List Int → List Int × List Int}
    (hNext : ∀ v vis, vis.Nodup → v ∉ vis → (dfsNext v vis).1.Nodup) :
    ∀ (es : List Edge) (vis : List Int), vis.Nodup →
      (dfsRecEdges dfsNext es vis).1.Nodup := by
  intro es
  induction es with
  | nil => intro vis h; simpa [dfsRecEdges] using h
  | cons e es ih =>
    intro vis h
    by_cases hmem : e.m_vertex2 ∈ vis
    · simpa [dfsRecEdges, hmem] using ih vis h
    · simp only [dfsRecEdges, if_neg hmem]
      exact ih _ (hNext _ _ h hmem)

theorem dfsRecGo_nodup (g : Graph) :
    ∀ (fuel : Nat) (v : Int) (vis : List Int), vis.Nodup → v ∉ vis →
      (dfsRecGo g fuel v vis).1.Nodup := by
  intro fuel
  induction fuel with
  | zero => intro v vis h _; simpa [dfsRecGo] using h
  | succ n ih =>
    intro v vis h hv
    simp only [dfsRecGo]
    refine dfsRecEdges_nodup (fun v vis h hv => ih v vis h hv) _ _ ?_
    refine List.Nodup.append h (List.nodup_singleton v) ?_
    intro a ha hb
    rw [List.mem_singleton] at hb
    exact hv (hb ▸ ha)

/-! ### Fuel accounting: counting vertices not yet visited -/

def unvisitedCount : List Int → List Int → Nat
  | [], _ => 0
  | a :: verts, vis => (if a ∈ vis then 0 else 1) + unvisitedCount verts vis

theorem unvisitedCount_le (verts vis : List Int) :
    unvisitedCount verts vis ≤ verts.length := by
  induction verts with
  | nil => simp [unvisitedCount]
  | cons a verts ih =>
    simp only [unvisitedCount, List.length_cons]
    by_cases h : a ∈ vis <;> simp [h] <;> omega

theorem unvisitedCount_mono (verts : List Int) {vis vis' : List Int}
    (h : ∀ x ∈ vis, x ∈ vis') :
    unvisitedCount verts vis' ≤ unvisitedCount verts vis := by
  induction verts with
  | nil => exact le_refl _
  | cons a verts ih =>
    simp only [unvisitedCount]
    by_cases ha' : a ∈ vis'
    · simp only [ha', if_true]
      by_cases ha : a ∈ vis <;> simp [ha] <;> omega
    · have ha : a ∉ vis := fun hx => ha' (h a hx)
      simp only [ha', ha, if_false]
      omega

theorem unvisitedCount_append_one {verts vis : List Int} {v : Int}
    (hv : v ∈ verts) (hnv : v ∉ vis) :
    unvisitedCount verts (vis ++ [v]) + 1 ≤ unvisitedCount verts vis := by
  induction verts with
  | nil => simp at hv
  | cons a verts ih =>
    simp only [unvisitedCount]
    by_cases hav : a = v
    · subst hav
      have h1 : a ∈ vis ++ [a] := List.mem_append_right _ (List.mem_singleton_self a)
      rw [if_pos h1, if_neg hnv]
      have := @unvisitedCount_mono verts vis (vis ++ [a])
        (fun x hx => List.mem_append_left [a] hx)
      omega
    · have h2 : (a ∈ vis ++ [v]) ↔ (a ∈ vis) := by
        simp [List.mem_append, hav]
      have hv' : v ∈ verts := by
        rcases List.mem_cons.1 hv with h | h
        · exact absurd h.symm hav
        · exact h
      have h3 := ih hv'
      by_cases ha : a ∈ vis
      · rw [if_pos (h2.2 ha), if_pos ha]
        omega
      · rw [if_neg (fun hx => ha (h2.1 hx)), if_neg ha]
        omega

theorem unvisitedCount_append_many {verts : List Int} :
    ∀ {Δ vis : List Int}, Δ.Nodup → (∀ w ∈ Δ, w ∈ verts ∧ w ∉ vis) →
      unvisitedCount verts (vis ++ Δ) + Δ.length ≤ unvisitedCount verts vis := by
  intro Δ
  induction Δ with
  | nil => intro vis _ _; simp
  | cons w Δ ih =>
    intro vis hnd hΔ
    have hw := hΔ w (List.mem_cons_self _ _)
    have h1 : vis ++ w :: Δ = (vis ++ [w]) ++ Δ := by simp
    rw [h1]
    have h2 := @ih (vis ++ [w]) (List.Nodup.of_cons hnd) (fun x hx =>
      ⟨(hΔ x (List.mem_cons_of_mem _ hx)).1, by
        intro hmem
        rcases List.mem_append.1 hmem with hmem | hmem
        · exact (hΔ x (List.mem_cons_of_mem _ hx)).2 hmem
        · rw [List.mem_singleton] at hmem
          subst hmem
          exact (List.nodup_cons.1 hnd).1 hx⟩)
    have h3 := unvisitedCount_append_one hw.1 hw.2
    simp only [List.length_cons]
    omega

/-! ### Closedness: with enough fuel, the recursive DFS fully expands
every vertex it visits -/

theorem dfsRecEdges_closed (g : Graph) (verts : List Int) (fuelN : Nat)
    (hGo : ∀ (v : Int) (vis : List Int), v ∈ verts → v ∉ vis →
      unvisitedCount verts vis + 1 ≤ fuelN →
      ∀ x ∈ (dfsRecGo g fuelN v vis).1,
        x ∈ vis ∨ ∀ w ∈ succs g x, w ∈ (dfsRecGo g fuelN v vis).1) :
    ∀ (es : List Edge) (vis : List Int),
      (∀ e ∈ es, e.m_vertex2 ∈ verts) →
      unvisitedCount verts vis + 1 ≤ fuelN →
      (∀ e ∈ es, e.m_vertex2 ∈ (dfsRecEdges (dfsRecGo g fuelN) es vis).1) ∧
      (∀ x ∈ (dfsRecEdges (dfsRecGo g fuelN) es vis).1,
        x ∈ vis ∨ ∀ w ∈ succs g x, w ∈ (dfsRecEdges (dfsRecGo g fuelN) es vis).1) := by
  have hApp : ∀ (v : Int) (vis : List Int),
      (dfsRecGo g fuelN v vis).1 = vis ++ (dfsRecGo g fuelN v vis).2 :=
    dfsRecGo_visited_append g fuelN
  have hEApp : ∀ (es : List Edge) (vis : List Int),
      (dfsRecEdges (dfsRecGo g fuelN) es vis).1 =
        vis ++ (dfsRecEdges (dfsRecGo g fuelN) es vis).2 :=
    dfsRecEdges_visited_append hApp
  intro es
  induction es with
  | nil =>
    intro vis _ _
    refine ⟨by simp, ?_⟩
    intro x hx
    simp only [dfsRecEdges] at hx
    exact Or.inl hx
  | cons e es ih =>
    intro vis hes hfuel
    by_cases hmem : e.m_vertex2 ∈ vis
    · have hih := ih vis (fun e' he' => hes e' (List.mem_cons_of_mem _ he')) hfuel
      constructor
      · intro e' he'
        rcases List.mem_cons.1 he' with rfl | he'
        · simp only [dfsRecEdges, if_pos hmem]
          rw [hEApp]
          exact List.mem_append_left _ hmem
        · simpa only [dfsRecEdges, if_pos hmem] using hih.1 e' he'
      · intro x hx
        simp only [dfsRecEdges, if_pos hmem] at hx ⊢
        exact hih.2 x hx
    · have hfuelN1 : 1 ≤ fuelN := by omega
      have hv2 : e.m_vertex2 ∈ verts := hes e (List.mem_cons_self _ _)
      -- the recursive visit of e's target
      have hGoth := hGo e.m_vertex2 vis hv2 hmem hfuel
      have hsub : ∀ x ∈ vis, x ∈ (dfsRecGo g fuelN e.m_vertex2 vis).1 := by
        intro x hx; rw [hApp]; exact List.mem_append_left _ hx
      have hfuel' : unvisitedCount verts (dfsRecGo g fuelN e.m_vertex2 vis).1 + 1 ≤ fuelN :=
        le_trans (by
          have := unvisitedCount_mono verts hsub
          omega) hfuel
      have hih := ih (dfsRecGo g fuelN e.m_vertex2 vis).1
        (fun e' he' => hes e' (List.mem_cons_of_mem _ he')) hfuel'
      have hsub2 : ∀ x ∈ (dfsRecGo g fuelN e.m_vertex2 vis).1,
          x ∈ (dfsRecEdges (dfsRecGo g fuelN) (e :: es) vis).1 := by
        intro x hx
        simp only [dfsRecEdges, if_neg hmem]
        rw [hEApp]
        exact List.mem_append_left _ hx
      constructor
      · intro e' he'
        rcases List.mem_cons.1 he' with rfl | he'
        · exact hsub2 _ (dfsRecGo_mem_start g hfuelN1 e'.m_vertex2 vis)
        · simpa only [dfsRecEdges, if_neg hmem] using hih.1 e' he'
      · intro x hx
        have hx' : x ∈ (dfsRecEdges (dfsRecGo g fuelN) es (dfsRecGo g fuelN e.m_vertex2 vis).1).1 := by
          simpa only [dfsRecEdges, if_neg hmem] using hx
        rcases hih.2 x hx' with hxr | hclos
        · rcases hGoth x hxr with hxvis | hclos
          · exact Or.inl hxvis
          · refine Or.inr (fun w hw => ?_)
            simp only [dfsRecEdges, if_neg hmem]
            have hwr := hclos w hw
            rw [hEApp]
            exact List.mem_append_left _ hwr
        · refine Or.inr (fun w hw => ?_)
          simp only [dfsRecEdges, if_neg hmem]
          exact hclos w hw

theorem dfsRecGo_closed (g : Graph) (verts : List Int)
    (hcl : ∀ u w, w ∈ succs g u → w ∈ verts) :
    ∀ (fuel : Nat) (v : Int) (vis : List Int),
      v ∈ verts → v ∉ vis → unvisitedCount verts vis + 1 ≤ fuel →
      ∀ x ∈ (dfsRecGo g fuel v vis).1,
        x ∈ vis ∨ ∀ w ∈ succs g x, w ∈ (dfsRecGo g fuel v vis).1 := by
  intro fuel
  induction fuel with
  | zero => intro v vis _ _ hfuel; omega
  | succ n ih =>
    intro v vis hv hnv hfuel x hx
    have hes : ∀ e ∈ g.GetEdges v, e.m_vertex2 ∈ verts :=
      fun e he => hcl v _ (mem_succs_of_mem_getEdges he)
    have hone := unvisitedCount_append_one hv hnv
    have hfuelE : unvisitedCount verts (vis ++ [v]) + 1 ≤ n := by omega
    have hE := dfsRecEdges_closed g verts n ih (g.GetEdges v) (vis ++ [v]) hes hfuelE
    have hres : (dfsRecGo g (n + 1) v vis).1 =
        (dfsRecEdges (dfsRecGo g n) (g.GetEdges v) (vis ++ [v])).1 := by
      simp [dfsRecGo]
    rw [hres] at hx ⊢
    rcases hE.2 x hx with hxv | hclos
    · rcases List.mem_append.1 hxv with hxv | hxv
      · exact Or.inl hxv
      · rw [List.mem_singleton] at hxv
        subst hxv
        refine Or.inr (fun w hw => ?_)
        obtain ⟨e, he, rfl⟩ := List.mem_map.1 hw
        exact hE.1 e he
    · exact Or.inr hclos

/-- Full characterisation of the recursive DFS started with an empty
visited vector: it prints exactly its final visited vector, without
duplicates, and the printed set is exactly the set of vertices reachable
from the start along `GetEdges`/`m_vertex2`. -/
theorem dfsRecGo_spec (g : Graph) (verts : List Int) (s : Int) (fuel : Nat)
    (hcl : ∀ u w, w ∈ succs g u → w ∈ verts) (hs : s ∈ verts)
    (hfuel : verts.length + 1 ≤ fuel) :
    (dfsRecGo g fuel s []).1 = (dfsRecGo g fuel s []).2 ∧
    (dfsRecGo g fuel s []).2.Nodup ∧
    (∀ x, x ∈ (dfsRecGo g fuel s []).2 ↔ Reaches g s x) := by
  have happ := dfsRecGo_visited_append g fuel s []
  have heq : (dfsRecGo g fuel s []).1 = (dfsRecGo g fuel s []).2 := by simpa using happ
  have hfuel0 : unvisitedCount verts [] + 1 ≤ fuel := by
    have := unvisitedCount_le verts []
    omega
  have hclosed := dfsRecGo_closed g verts hcl fuel s [] hs (List.not_mem_nil s) hfuel0
  have hstart : s ∈ (dfsRecGo g fuel s []).1 := dfsRecGo_mem_start g (by omega) s []
  refine ⟨heq, ?_, ?_⟩
  · rw [← heq]
    exact dfsRecGo_nodup g fuel s [] List.nodup_nil (List.not_mem_nil s)
  · intro x
    constructor
    · exact dfsRecGo_sound g fuel s [] x
    · intro hr
      rw [← heq]
      induction hr with
      | refl => exact hstart
      | tail hruv hstep ihx =>
        rcases hclosed _ ihx with hin | hclos
        · exact absurd hin (List.not_mem_nil _)
        · exact hclos _ hstep

/-! ### The edge scans of the iterative traversals -/

theorem scan_dfs_spec :
    ∀ (es : List Edge) (c vis : List Int),
      ∃ Δ : List Int,
        (es.foldl dfsPush (c, vis)).2 = vis ++ Δ ∧
        ((es.foldl dfsPush (c, vis)).1).Perm (Δ ++ c) ∧
        (∀ w ∈ Δ, w ∈ es.map Edge.m_vertex2 ∧ w ∉ vis) ∧
        Δ.Nodup ∧
        (∀ e ∈ es, e.m_vertex2 ∈ (es.foldl dfsPush (c, vis)).2) := by
  intro es
  induction es with
  | nil =>
    intro c vis
    exact ⟨[], by simp, by simp, by simp, List.nodup_nil, by simp⟩
  | cons e es ih =>
    intro c vis
    by_cases hmem : e.m_vertex2 ∈ vis
    · obtain ⟨Δ, h1, h2, h3, h4, h5⟩ := ih c vis
      have hstep : dfsPush (c, vis) e = (c, vis) := by simp [dfsPush, hmem]
      refine ⟨Δ, ?_, ?_, ?_, h4, ?_⟩
      · simpa [List.foldl_cons, hstep] using h1
      · simpa [List.foldl_cons, hstep] using h2
      · intro w hw
        exact ⟨List.mem_cons_of_mem _ (h3 w hw).1, (h3 w hw).2⟩
      · intro e' he'
        rcases List.mem_cons.1 he' with rfl | he'
        · rw [List.foldl_cons, hstep, h1]
          exact List.mem_append_left _ hmem
        · simpa [List.foldl_cons, hstep] using h5 e' he'
    · obtain ⟨Δ, h1, h2, h3, h4, h5⟩ := ih (e.m_vertex2 :: c) (vis ++ [e.m_vertex2])
      have hstep : dfsPush (c, vis) e = (e.m_vertex2 :: c, vis ++ [e.m_vertex2]) := by
        simp [dfsPush, hmem]
      refine ⟨e.m_vertex2 :: Δ, ?_, ?_, ?_, ?_, ?_⟩
      · rw [List.foldl_cons, hstep, h1]
        simp
      · rw [List.foldl_cons, hstep]
        refine h2.trans ?_
        have := @List.perm_middle Int e.m_vertex2 Δ c
        exact this.symm.symm.trans (by simp)
      · intro w hw
        rcases List.mem_cons.1 hw with rfl | hw
        · exact ⟨by simp, hmem⟩
        · refine ⟨List.mem_cons_of_mem _ (h3 w hw).1, fun hx => (h3 w hw).2
            (List.mem_append_left _ hx)⟩
      · refine List.nodup_cons.2 ⟨fun hx => ?_, h4⟩
        exact (h3 _ hx).2 (List.mem_append_right _ (List.mem_singleton_self _))
      · intro e' he'
        rcases List.mem_cons.1 he' with rfl | he'
        · rw [List.foldl_cons, hstep, h1]
          refine List.mem_append_left _ (List.mem_append_right _ ?_)
          exact List.mem_singleton_self _
        · simpa [List.foldl_cons, hstep] using h5 e' he'

theorem scan_bfs_spec :
    ∀ (es : List Edge) (c vis : List Int),
      ∃ Δ : List Int,
        (es.foldl bfsPush (c, vis)).2 = vis ++ Δ ∧
        ((es.foldl bfsPush (c, vis)).1).Perm (Δ ++ c) ∧
        (∀ w ∈ Δ, w ∈ es.map Edge.m_vertex2 ∧ w ∉ vis) ∧
        Δ.Nodup ∧
        (∀ e ∈ es, e.m_vertex2 ∈ (es.foldl bfsPush (c, vis)).2) := by
  intro es
  induction es with
  | nil =>
    intro c vis
    exact ⟨[], by simp, by simp, by simp, List.nodup_nil, by simp⟩
  | cons e es ih =>
    intro c vis
    by_cases hmem : e.m_vertex2 ∈ vis
    · obtain ⟨Δ, h1, h2, h3, h4, h5⟩ := ih c vis
      have hstep : bfsPush (c, vis) e = (c, vis) := by simp [bfsPush, hmem]
      refine ⟨Δ, ?_, ?_, ?_, h4, ?_⟩
      · simpa [List.foldl_cons, hstep] using h1
      · simpa [List.foldl_cons, hstep] using h2
      · intro w hw
        exact ⟨List.mem_cons_of_mem _ (h3 w hw).1, (h3 w hw).2⟩
      · intro e' he'
        rcases List.mem_cons.1 he' with rfl | he'
        · rw [List.foldl_cons, hstep, h1]
          exact List.mem_append_left _ hmem
        · simpa [List.foldl_cons, hstep] using h5 e' he'
    · obtain ⟨Δ, h1, h2, h3, h4, h5⟩ := ih (c ++ [e.m_vertex2]) (vis ++ [e.m_vertex2])
      have hstep : bfsPush (c, vis) e = (c ++ [e.m_vertex2], vis ++ [e.m_vertex2]) := by
        simp [bfsPush, hmem]
      refine ⟨e.m_vertex2 :: Δ, ?_, ?_, ?_, ?_, ?_⟩
      · rw [List.foldl_cons, hstep, h1]
        simp
      · rw [List.foldl_cons, hstep]
        refine h2.trans ?_
        -- Δ ++ (c ++ [e.v2]) ~ (e.v2 :: Δ) ++ c
        refine (List.Perm.append_left Δ (List.perm_append_singleton _ _)).trans ?_
        -- Δ ++ (e.v2 :: c) ~ (e.v2 :: Δ) ++ c
        have := @List.perm_middle Int e.m_vertex2 Δ c
        exact this.trans (by simp)
      · intro w hw
        rcases List.mem_cons.1 hw with rfl | hw
        · exact ⟨by simp, hmem⟩
        · refine ⟨List.mem_cons_of_mem _ (h3 w hw).1, fun hx => (h3 w hw).2
            (List.mem_append_left _ hx)⟩
      · refine List.nodup_cons.2 ⟨fun hx => ?_, h4⟩
        exact (h3 _ hx).2 (List.mem_append_right _ (List.mem_singleton_self _))
      · intro e' he'
        rcases List.mem_cons.1 he' with rfl | he'
        · rw [List.foldl_cons, hstep, h1]
          refine List.mem_append_left _ (List.mem_append_right _ ?_)
          exact List.mem_singleton_self _
        · simpa [List.foldl_cons, hstep] using h5 e' he'

theorem mem_succs_of_mem_rev_map {g : Graph} {u w : Int}
    (h : w ∈ ((g.GetEdges u).reverse).map Edge.m_vertex2) : w ∈ succs g u := by
  rw [List.map_reverse, List.mem_reverse] at h
  exact h

theorem dfsIterLoop_spec (g : Graph) (verts : List Int) (s : Int)
    (hcl : ∀ u w, w ∈ succs g u → w ∈ verts) :
    ∀ (fuel : Nat) (c vis out : List Int),
      vis.Nodup →
      vis.Perm (out ++ c) →
      (∀ x ∈ out, ∀ w ∈ succs g x, w ∈ vis) →
      (∀ x ∈ vis, Reaches g s x) →
      unvisitedCount verts vis + c.length + 1 ≤ fuel →
      ((dfsIterLoop g fuel c vis out).1).Perm ((dfsIterLoop g fuel c vis out).2) ∧
      ((dfsIterLoop g fuel c vis out).1).Nodup ∧
      (∀ x ∈ (dfsIterLoop g fuel c vis out).1, ∀ w ∈ succs g x,
        w ∈ (dfsIterLoop g fuel c vis out).1) ∧
      (∀ x ∈ vis, x ∈ (dfsIterLoop g fuel c vis out).1) ∧
      (∀ x ∈ (dfsIterLoop g fuel c vis out).1, Reaches g s x) := by
  intro fuel
  induction fuel with
  | zero => intro c vis out _ _ _ _ hfuel; omega
  | succ n ih =>
    intro c vis out hnd hperm hexp hsound hfuel
    cases c with
    | nil =>
      simp only [dfsIterLoop]
      have hvo : vis.Perm out := by simpa using hperm
      refine ⟨hvo, hnd, ?_, fun x hx => hx, hsound⟩
      intro x hx w hw
      exact hexp x (hvo.mem_iff.1 hx) w hw
    | cons vertex stack =>
      obtain ⟨Δ, h1, h2, h3, h4, h5⟩ :=
        scan_dfs_spec ((g.GetEdges vertex).reverse) stack vis
      have hvtx_vis : vertex ∈ vis := hperm.mem_iff.2 (by simp)
      have hΔfresh : ∀ w ∈ Δ, w ∈ succs g vertex ∧ w ∉ vis :=
        fun w hw => ⟨mem_succs_of_mem_rev_map (h3 w hw).1, (h3 w hw).2⟩
      have hΔverts : ∀ w ∈ Δ, w ∈ verts ∧ w ∉ vis :=
        fun w hw => ⟨hcl vertex w (hΔfresh w hw).1, (hΔfresh w hw).2⟩
      -- the new state
      have hnd' : ((((g.GetEdges vertex).reverse).foldl dfsPush (stack, vis)).2).Nodup := by
        rw [h1]
        exact List.Nodup.append hnd h4 (fun a ha hb => (h3 a hb).2 ha)
      have hperm' : ((((g.GetEdges vertex).reverse).foldl dfsPush (stack, vis)).2).Perm
          ((out ++ [vertex]) ++ (((g.GetEdges vertex).reverse).foldl dfsPush (stack, vis)).1) := by
        rw [h1]
        have p1 : (vis ++ Δ).Perm ((out ++ (vertex :: stack)) ++ Δ) := hperm.append_right Δ
        have p2 : (out ++ (vertex :: stack)) ++ Δ = out ++ (vertex :: (stack ++ Δ)) := by simp
        have p3 : (vertex :: (stack ++ Δ)).Perm (vertex :: (Δ ++ stack)) :=
          List.Perm.cons vertex List.perm_append_comm
        have p4 : (out ++ (vertex :: (stack ++ Δ))).Perm (out ++ (vertex :: (Δ ++ stack))) :=
          List.Perm.append_left out p3
        have p5 : (out ++ [vertex]) ++ (Δ ++ stack) = out ++ (vertex :: (Δ ++ stack)) := by simp
        have p6 : ((out ++ [vertex]) ++
            ((((g.GetEdges vertex).reverse).foldl dfsPush (stack, vis)).1)).Perm
            ((out ++ [vertex]) ++ (Δ ++ stack)) := List.Perm.append_left _ h2
        have q1 : (vis ++ Δ).Perm (out ++ vertex :: (Δ ++ stack)) := by
          rw [p2] at p1
          exact p1.trans p4
        have q2 : (vis ++ Δ).Perm ((out ++ [vertex]) ++ (Δ ++ stack)) := by
          rw [p5]
          exact q1
        exact q2.trans p6.symm
      have hexp' : ∀ x ∈ out ++ [vertex], ∀ w ∈ succs g x,
          w ∈ ((((g.GetEdges vertex).reverse).foldl dfsPush (stack, vis)).2) := by
        intro x hx w hw
        rcases List.mem_append.1 hx with hx | hx
        · rw [h1]
          exact List.mem_append_left _ (hexp x hx w hw)
        · rw [List.mem_singleton] at hx
          subst hx
          obtain ⟨e, he, rfl⟩ := List.mem_map.1 hw
          exact h5 e (List.mem_reverse.2 he)
      have hsound' : ∀ x ∈ ((((g.GetEdges vertex).reverse).foldl dfsPush (stack, vis)).2),
          Reaches g s x := by
        rw [h1]
        intro x hx
        rcases List.mem_append.1 hx with hx | hx
        · exact hsound x hx
        · exact Relation.ReflTransGen.tail (hsound vertex hvtx_vis) (hΔfresh x hx).1
      have hfuel' : unvisitedCount verts
            ((((g.GetEdges vertex).reverse).foldl dfsPush (stack, vis)).2) +
          ((((g.GetEdges vertex).reverse).foldl dfsPush (stack, vis)).1).length + 1 ≤ n := by
        rw [h1, h2.length_eq]
        have hmany := unvisitedCount_append_many h4 hΔverts
        simp only [List.length_append, List.length_cons] at hfuel ⊢
        omega
      have hmain := ih _ _ _ hnd' hperm' hexp' hsound' hfuel'
      simp only [dfsIterLoop]
      refine ⟨hmain.1, hmain.2.1, hmain.2.2.1, ?_, hmain.2.2.2.2⟩
      intro x hx
      refine hmain.2.2.2.1 x ?_
      rw [h1]
      exact List.mem_append_left _ hx

theorem bfsLoop_spec (g : Graph) (verts : List Int) (s : Int)
    (hcl : ∀ u w, w ∈ succs g u → w ∈ verts) :
    ∀ (fuel : Nat) (c vis out : List Int),
      vis.Nodup →
      vis.Perm (out ++ c) →
      (∀ x ∈ out, ∀ w ∈ succs g x, w ∈ vis) →
      (∀ x ∈ vis, Reaches g s x) →
      unvisitedCount verts vis + c.length + 1 ≤ fuel →
      ((bfsLoop g fuel c vis out).1).Perm ((bfsLoop g fuel c vis out).2) ∧
      ((bfsLoop g fuel c vis out).1).Nodup ∧
      (∀ x ∈ (bfsLoop g fuel c vis out).1, ∀ w ∈ succs g x,
        w ∈ (bfsLoop g fuel c vis out).1) ∧
      (∀ x ∈ vis, x ∈ (bfsLoop g fuel c vis out).1) ∧
      (∀ x ∈ (bfsLoop g fuel c vis out).1, Reaches g s x) := by
  intro fuel
  induction fuel with
  | zero => intro c vis out _ _ _ _ hfuel; omega
  | succ n ih =>
    intro c vis out hnd hperm hexp hsound hfuel
    cases c with
    | nil =>
      simp only [bfsLoop]
      have hvo : vis.Perm out := by simpa using hperm
      refine ⟨hvo, hnd, ?_, fun x hx => hx, hsound⟩
      intro x hx w hw
      exact hexp x (hvo.mem_iff.1 hx) w hw
    | cons vertex queue =>
      obtain ⟨Δ, h1, h2, h3, h4, h5⟩ := scan_bfs_spec (g.GetEdges vertex) queue vis
      have hvtx_vis : vertex ∈ vis := hperm.mem_iff.2 (by simp)
      have hΔfresh : ∀ w ∈ Δ, w ∈ succs g vertex ∧ w ∉ vis :=
        fun w hw => ⟨(h3 w hw).1, (h3 w hw).2⟩
      have hΔverts : ∀ w ∈ Δ, w ∈ verts ∧ w ∉ vis :=
        fun w hw => ⟨hcl vertex w (hΔfresh w hw).1, (hΔfresh w hw).2⟩
      have hnd' : (((g.GetEdges vertex).foldl bfsPush (queue, vis)).2).Nodup := by
        rw [h1]
        exact List.Nodup.append hnd h4 (fun a ha hb => (h3 a hb).2 ha)
      have hperm' : (((g.GetEdges vertex).foldl bfsPush (queue, vis)).2).Perm
          ((out ++ [vertex]) ++ ((g.GetEdges vertex).foldl bfsPush (queue, vis)).1) := by
        rw [h1]
        have p1 : (vis ++ Δ).Perm ((out ++ (vertex :: queue)) ++ Δ) := hperm.append_right Δ
        have p2 : (out ++ (vertex :: queue)) ++ Δ = out ++ (vertex :: (queue ++ Δ)) := by simp
        have p3 : (vertex :: (queue ++ Δ)).Perm (vertex :: (Δ ++ queue)) :=
          List.Perm.cons vertex List.perm_append_comm
        have p4 : (out ++ (vertex :: (queue ++ Δ))).Perm (out ++ (vertex :: (Δ ++ queue))) :=
          List.Perm.append_left out p3
        have p5 : (out ++ [vertex]) ++ (Δ ++ queue) = out ++ (vertex :: (Δ ++ queue)) := by simp
        have p6 : ((out ++ [vertex]) ++
            (((g.GetEdges vertex).foldl bfsPush (queue, vis)).1)).Perm
            ((out ++ [vertex]) ++ (Δ ++ queue)) := List.Perm.append_left _ h2
        have q1 : (vis ++ Δ).Perm (out ++ vertex :: (Δ ++ queue)) := by
          rw [p2] at p1
          exact p1.trans p4
        have q2 : (vis ++ Δ).Perm ((out ++ [vertex]) ++ (Δ ++ queue)) := by
          rw [p5]
          exact q1
        exact q2.trans p6.symm
      have hexp' : ∀ x ∈ out ++ [vertex], ∀ w ∈ succs g x,
          w ∈ (((g.GetEdges vertex).foldl bfsPush (queue, vis)).2) := by
        intro x hx w hw
        rcases List.mem_append.1 hx with hx | hx
        · rw [h1]
          exact List.mem_append_left _ (hexp x hx w hw)
        · rw [List.mem_singleton] at hx
          subst hx
          obtain ⟨e, he, rfl⟩ := List.mem_map.1 hw
          exact h5 e he
      have hsound' : ∀ x ∈ (((g.GetEdges vertex).foldl bfsPush (queue, vis)).2),
          Reaches g s x := by
        rw [h1]
        intro x hx
        rcases List.mem_append.1 hx with hx | hx
        · exact hsound x hx
        · exact Relation.ReflTransGen.tail (hsound vertex hvtx_vis) (hΔfresh x hx).1
      have hfuel' : unvisitedCount verts
            (((g.GetEdges vertex).foldl bfsPush (queue, vis)).2) +
          (((g.GetEdges vertex).foldl bfsPush (queue, vis)).1).length + 1 ≤ n := by
        rw [h1, h2.length_eq]
        have hmany := unvisitedCount_append_many h4 hΔverts
        simp only [List.length_append, List.length_cons] at hfuel ⊢
        omega
      have hmain := ih _ _ _ hnd' hperm' hexp' hsound' hfuel'
      simp only [bfsLoop]
      refine ⟨hmain.1, hmain.2.1, hmain.2.2.1, ?_, hmain.2.2.2.2⟩
      intro x hx
      refine hmain.2.2.2.1 x ?_
      rw [h1]
      exact List.mem_append_left _ hx

/-! ### Characterisation of the iterative traversals -/

theorem dfsIter_emits (g : Graph) (verts : List Int) (s : Int) (fuel : Nat)
    (hcl : ∀ u w, w ∈ succs g u → w ∈ verts) (hs : s ∈ verts)
    (hfuel : verts.length + 2 ≤ fuel) :
    (TraverseDepthFirst_NonRecursive g fuel s).Nodup ∧
    (∀ x, x ∈ TraverseDepthFirst_NonRecursive g fuel s ↔ Reaches g s x) := by
  have hfuel0 : unvisitedCount verts [s] + [s].length + 1 ≤ fuel := by
    have := unvisitedCount_le verts [s]
    simp only [List.length_cons, List.length_nil]
    omega
  have hmain := dfsIterLoop_spec g verts s hcl fuel [s] [s] []
    (List.nodup_singleton s) (by simp) (by simp)
    (fun x hx => by rw [List.mem_singleton] at hx; subst hx; exact Relation.ReflTransGen.refl)
    hfuel0
  obtain ⟨hperm, hnd, hclos, hseed, hsound⟩ := hmain
  have hs1 : s ∈ (dfsIterLoop g fuel [s] [s] []).1 := hseed s (List.mem_singleton_self s)
  constructor
  · exact hperm.nodup_iff.1 hnd
  · intro x
    rw [show TraverseDepthFirst_NonRecursive g fuel s = (dfsIterLoop g fuel [s] [s] []).2
        from rfl]
    rw [← hperm.mem_iff]
    constructor
    · exact hsound x
    · intro hr
      induction hr with
      | refl => exact hs1
      | tail hruv hstep ihx => exact hclos _ ihx _ hstep

theorem bfs_emits (g : Graph) (verts : List Int) (s : Int) (fuel : Nat)
    (hcl : ∀ u w, w ∈ succs g u → w ∈ verts) (hs : s ∈ verts)
    (hfuel : verts.length + 2 ≤ fuel) :
    (TraverseBreathFirst_NonRecursive g fuel s).Nodup ∧
    (∀ x, x ∈ TraverseBreathFirst_NonRecursive g fuel s ↔ Reaches g s x) := by
  have hfuel0 : unvisitedCount verts [s] + [s].length + 1 ≤ fuel := by
    have := unvisitedCount_le verts [s]
    simp only [List.length_cons, List.length_nil]
    omega
  have hmain := bfsLoop_spec g verts s hcl fuel [s] [s] []
    (List.nodup_singleton s) (by simp) (by simp)
    (fun x hx => by rw [List.mem_singleton] at hx; subst hx; exact Relation.ReflTransGen.refl)
    hfuel0
  obtain ⟨hperm, hnd, hclos, hseed, hsound⟩ := hmain
  have hs1 : s ∈ (bfsLoop g fuel [s] [s] []).1 := hseed s (List.mem_singleton_self s)
  constructor
  · exact hperm.nodup_iff.1 hnd
  · intro x
    rw [show TraverseBreathFirst_NonRecursive g fuel s = (bfsLoop g fuel [s] [s] []).2
        from rfl]
    rw [← hperm.mem_iff]
    constructor
    · exact hsound x
    · intro hr
      induction hr with
      | refl => exact hs1
      | tail hruv hstep ihx => exact hclos _ ihx _ hstep

/-! ### Finite vertex universes for the storage variants -/

/-- All traversal targets an edge-list graph can ever produce. -/
def edgeListVerts (g : GraphEdgeList) : List Int := g.m_edgeList.map Edge.m_vertex2

theorem edgeList_closed (g : GraphEdgeList) :
    ∀ u w, w ∈ succs g.toGraph u → w ∈ edgeListVerts g := by
  intro u w hw
  obtain ⟨e, he, rfl⟩ := List.mem_map.1 hw
  have hmem : e ∈ g.m_edgeList := by
    cases hdir : g.m_isDirected
    · have h' : e ∈ g.m_edgeList ∧ (e.m_vertex1 = u ∨ e.m_vertex2 = u) := by
        simpa [GraphEdgeList.toGraph, GraphEdgeList.GetEdges, hdir] using he
      exact h'.1
    · have h' : e ∈ g.m_edgeList ∧ e.m_vertex1 = u := by
        simpa [GraphEdgeList.toGraph, GraphEdgeList.GetEdges, hdir] using he
      exact h'.1
  exact List.mem_map_of_mem _ hmem

/-- All traversal targets an adjacency-list graph can ever produce. -/
def adjListVerts (g : GraphAdjecencyList) : List Int :=
  (g.m_vertices.map (fun row => row.map Edge.m_vertex2)).flatten

theorem adjList_closed (g : GraphAdjecencyList) :
    ∀ u w, w ∈ succs g.toGraph u → w ∈ adjListVerts g := by
  intro u w hw
  obtain ⟨e, he, rfl⟩ := List.mem_map.1 hw
  simp only [GraphAdjecencyList.toGraph, GraphAdjecencyList.GetEdges] at he
  by_cases hr : vertexInRange u g.m_vertices.length = true
  · rw [if_neg (by simp [hr])] at he
    have hlt := toNat_lt_of_inRange hr
    rw [List.getD_eq_getElem _ _ hlt] at he
    refine List.mem_flatten.2 ⟨(g.m_vertices[u.toNat]).map Edge.m_vertex2, ?_, ?_⟩
    · exact List.mem_map_of_mem _ (List.getElem_mem hlt)
    · exact List.mem_map_of_mem _ he
  · rw [if_pos (by simpa using hr)] at he
    exact absurd he (List.not_mem_nil e)

/-- The vertex range of an adjacency-matrix graph. -/
def matrixVerts (g : GraphAdjecencyMatrix) : List Int :=
  (List.range g.m_matrix.length).map Int.ofNat

theorem matrix_closed (g : GraphAdjecencyMatrix) (hwf : g.WF) :
    ∀ u w, w ∈ succs g.toGraph u → w ∈ matrixVerts g := by
  intro u w hw
  obtain ⟨e, he, rfl⟩ := List.mem_map.1 hw
  simp only [GraphAdjecencyMatrix.toGraph, GraphAdjecencyMatrix.GetEdges] at he
  by_cases hr : vertexInRange u g.m_matrix.length = true
  · rw [if_neg (by simp [hr])] at he
    have hlt := toNat_lt_of_inRange hr
    obtain ⟨v2, hv2, heq⟩ := List.mem_filterMap.1 he
    rw [List.mem_range] at hv2
    split at heq
    · injection heq with h
      subst h
      have hgoal : ((v2 : Nat) : Int) ∈ matrixVerts g := by
        unfold matrixVerts
        refine List.mem_map_of_mem _ (List.mem_range.2 ?_)
        rw [← WF_row_length hwf hlt]
        exact hv2
      exact hgoal
    · exact Option.noConfusion heq
  · rw [if_pos (by simpa using hr)] at he
    exact absurd he (List.not_mem_nil e)

theorem nodup_mem_perm {l₁ l₂ : List Int} (h₁ : l₁.Nodup) (h₂ : l₂.Nodup)
    (h : ∀ x, x ∈ l₁ ↔ x ∈ l₂) : l₁.Perm l₂ := by
  rw [List.perm_iff_count]
  intro a
  by_cases ha : a ∈ l₁
  · rw [List.count_eq_one_of_mem h₁ ha, List.count_eq_one_of_mem h₂ ((h a).1 ha)]
  · rw [List.count_eq_zero.2 ha, List.count_eq_zero.2 (fun hx => ha ((h a).2 hx))]

/-- C1 (amended): for every graph (as the abstract `GetEdges` capability
all three storage variants implement, with `verts` a finite universe
closed under the successor relation) and every start vertex, each of the
three traversals emits, exactly once each, precisely the vertices
reachable from the start by repeatedly following `GetEdges` and taking
each edge's `m_vertex2`.  For directed graphs and for the matrix and
adjacency-list variants this successor-reachability coincides with graph
reachability; for the undirected edge-list variant it does not (see the
counterexample), which is what forces the amendment. -/
theorem traversals_emit_reachable_once (g : Graph) (verts : List Int) (s : Int) (fuel : Nat)
    (hcl : ∀ u w, w ∈ succs g u → w ∈ verts) (hs : s ∈ verts)
    (hfuel : verts.length + 2 ≤ fuel) :
    ((TraverseDepthFirst_Recursive (some g) fuel s []).2.Nodup ∧
      (∀ x, x ∈ (TraverseDepthFirst_Recursive (some g) fuel s []).2 ↔ Reaches g s x)) ∧
    ((TraverseDepthFirst_NonRecursive g fuel s).Nodup ∧
      (∀ x, x ∈ TraverseDepthFirst_NonRecursive g fuel s ↔ Reaches g s x)) ∧
    ((TraverseBreathFirst_NonRecursive g fuel s).Nodup ∧
      (∀ x, x ∈ TraverseBreathFirst_NonRecursive g fuel s ↔ Reaches g s x)) := by
  obtain ⟨_, hnd1, hiff1⟩ := dfsRecGo_spec g verts s fuel hcl hs (by omega)
  exact ⟨⟨hnd1, hiff1⟩, dfsIter_emits g verts s fuel hcl hs hfuel,
    bfs_emits g verts s fuel hcl hs hfuel⟩

/-- A 2-vertex directed adjacency-list graph with the cycle 0 ⇄ 1,
used to instantiate the traversal theorems. -/
def gCycle : GraphAdjecencyList :=
  ((GraphAdjecencyList.mk0 2 true).SetEdge 0 1 5).SetEdge 1 0 5

/-- Witness for `traversals_emit_reachable_once` on `gCycle`. -/
theorem traversals_emit_reachable_once_inst :
    ((TraverseDepthFirst_Recursive (some gCycle.toGraph) 10 0 []).2.Nodup ∧
      (∀ x, x ∈ (TraverseDepthFirst_Recursive (some gCycle.toGraph) 10 0 []).2 ↔
        Reaches gCycle.toGraph 0 x)) ∧
    ((TraverseDepthFirst_NonRecursive gCycle.toGraph 10 0).Nodup ∧
      (∀ x, x ∈ TraverseDepthFirst_NonRecursive gCycle.toGraph 10 0 ↔
        Reaches gCycle.toGraph 0 x)) ∧
    ((TraverseBreathFirst_NonRecursive gCycle.toGraph 10 0).Nodup ∧
      (∀ x, x ∈ TraverseBreathFirst_NonRecursive gCycle.toGraph 10 0 ↔
        Reaches gCycle.toGraph 0 x)) :=
  traversals_emit_reachable_once gCycle.toGraph (adjListVerts gCycle) 0 10
    (adjList_closed gCycle) (by decide) (by decide)

/-- C2 (amended): the recursive and iterative DFS emit the same vertices,
each exactly once, though not necessarily in the same order (see the
order counterexample). -/
theorem dfs_rec_iter_same_vertices (g : Graph) (verts : List Int) (s : Int) (fuel : Nat)
    (hcl : ∀ u w, w ∈ succs g u → w ∈ verts) (hs : s ∈ verts)
    (hfuel : verts.length + 2 ≤ fuel) :
    ((TraverseDepthFirst_Recursive (some g) fuel s []).2).Perm
      (TraverseDepthFirst_NonRecursive g fuel s) := by
  obtain ⟨_, hnd1, hiff1⟩ := dfsRecGo_spec g verts s fuel hcl hs (by omega)
  obtain ⟨hnd2, hiff2⟩ := dfsIter_emits g verts s fuel hcl hs hfuel
  exact nodup_mem_perm hnd1 hnd2 (fun x => (hiff1 x).trans (hiff2 x).symm)

/-- Witness for `dfs_rec_iter_same_vertices` on `gCycle`. -/
theorem dfs_rec_iter_same_vertices_inst :
    ((TraverseDepthFirst_Recursive (some gCycle.toGraph) 10 0 []).2).Perm
      (TraverseDepthFirst_NonRecursive gCycle.toGraph 10 0) :=
  dfs_rec_iter_same_vertices gCycle.toGraph (adjListVerts gCycle) 0 10
    (adjList_closed gCycle) (by decide) (by decide)
